import Mathlib

/-!
Verification of the AWS Glue importer core from
`src/datacontract/imports/glue_importer.py`: the nested type-string
normalizer `generate_sub_fields`, the schema formatter `format_schema`,
the field-tree builders `import_record_fields` / `import_array_field`,
and the scalar name mapper `map_type_from_sql`.

Modelling conventions: Python strings are lists of characters (`Str`),
Python slice and find semantics are reproduced exactly (including
negative indices and the `-1` failure value), values parsed by
`json.loads` are an explicit `Json` type built with dict semantics
(later duplicate keys overwrite earlier ones), and code that can raise
a Python exception returns `Except PyErr`.  Recursive builders take an
explicit fuel argument so that every definition is structural and
evaluates inside the kernel; fuel is always quantified or chosen large
enough that exhaustion is unreachable on the inputs considered.
-/

/-- Python strings are modelled as lists of characters. -/
abbrev Str := List Char

/-- The single-quote character, written via its code point. -/
def sqc : Char := Char.ofNat 39

/-- The double-quote character, written via its code point. -/
def dqc : Char := Char.ofNat 34

/-- The opening curly brace character. -/
def lbc : Char := Char.ofNat 123

/-- The closing curly brace character. -/
def rbc : Char := Char.ofNat 125

/-- The backslash character. -/
def bsc : Char := Char.ofNat 92

/-- Python `str.startswith` on character lists. -/
def isPre : Str → Str → Bool
  | [], _ => true
  | _ :: _, [] => false
  | p :: ps, c :: cs => p == c && isPre ps cs

/-- Python `str.lower` (ASCII case folding, which covers every input here). -/
def lowerStr (s : Str) : Str := s.map Char.toLower

/-- Python `str.count` for a single-character needle. -/
def countChar (c : Char) : Str → Nat
  | [] => 0
  | a :: t => (if a = c then 1 else 0) + countChar c t

/-- Index of the last occurrence of a character, if any. -/
def rfindChar (c : Char) : Str → Option Nat
  | [] => none
  | a :: t =>
    match rfindChar c t with
    | some i => some (i + 1)
    | none => if a = c then some 0 else none

/-- Index of the first occurrence of a character, if any. -/
def findChar (c : Char) : Str → Option Nat
  | [] => none
  | a :: t => if a = c then some 0 else (findChar c t).map (· + 1)

/-- Python `str.rfind`: the last index of the character, or `-1`. -/
def pyRfind (c : Char) (s : Str) : Int :=
  match rfindChar c s with
  | some p => (p : Int)
  | none => -1

/-- Python `str.find` for a single character: the first index, or `-1`. -/
def pyFindC (c : Char) (s : Str) : Int :=
  match findChar c s with
  | some p => (p : Int)
  | none => -1

/-- Clamp one Python slice endpoint of a string of length `n` to `0..n`,
resolving negative indices from the end as Python does. -/
def pyClamp (n : Nat) (i : Int) : Nat :=
  if i < 0 then n - min n (-i).toNat else min i.toNat n

/-- Python slice `s[a:b]` with full Python endpoint semantics. -/
def pySlice (s : Str) (a b : Int) : Str :=
  let a' := pyClamp s.length a
  let b' := pyClamp s.length b
  (s.drop a').take (b' - a')

/-- Python slice `s[a:]`. -/
def pySliceFrom (s : Str) (a : Int) : Str := pySlice s a (s.length : Int)

/-- Python slice `s[:b]`. -/
def pySliceTo (s : Str) (b : Int) : Str := pySlice s 0 b

/-- Python `str.split` on a single-character separator. -/
def splitOnChar (c : Char) : Str → List Str
  | [] => [[]]
  | a :: t =>
    let r := splitOnChar c t
    if a = c then [] :: r
    else
      match r with
      | [] => [[a]]
      | h :: t2 => (a :: h) :: t2

/-- A regex word character, as matched by `\w` on the ASCII inputs here. -/
def isWordChar (c : Char) : Bool := c.isAlphanum || c == '_'

/-- The last maximal word-character run of a string: the value of
`re.findall` for word runs followed by taking the last element, or `none`
when the string holds no word character (where Python would raise). -/
def lastWord (l : Str) : Option Str :=
  let r := (l.reverse.dropWhile (fun c => !isWordChar c)).takeWhile (fun c => isWordChar c)
  if r.isEmpty then none else some r.reverse

/-- Join pieces with a single-character separator, as the normalizer
does when it reassembles struct member literals. -/
def joinSep (c : Char) : List Str → Str
  | [] => []
  | [x] => x
  | x :: t => x ++ c :: joinSep c t

/-- Python exceptions that the embedded code can raise. The two names
taken from the specification, `unbalancedBrackets` and `malformedType`,
are listed so statements can mention them; no code path produces them. -/
inductive PyErr where
  | jsonDecode
  | keyError
  | typeError
  | indexError
  | attributeError
  | fuelOut
  | unbalancedBrackets
  | malformedType
  deriving DecidableEq

mutual
/-- A value produced by `json.loads` (or handed in by the catalog
collaborator as a column record): string, number (kept as its lexeme),
boolean, null, array, or object. -/
inductive Json where
  | str (s : Str)
  | num (lit : Str)
  | tru
  | fls
  | nul
  | arr (l : JArr)
  | obj (o : JObj)
  deriving DecidableEq
/-- The element list of a `Json.arr`. -/
inductive JArr where
  | nil
  | cons (h : Json) (t : JArr)
  deriving DecidableEq
/-- The key-value list of a `Json.obj`, in insertion order. -/
inductive JObj where
  | nil
  | cons (k : Str) (v : Json) (t : JObj)
  deriving DecidableEq
end

/-- Python `dict.get`: the value at the first matching key, or `none`.
Objects built here always have distinct keys, as Python dicts do. -/
def JObj.get (key : Str) : JObj → Option Json
  | .nil => none
  | .cons k v t => if k = key then some v else JObj.get key t

/-- Python `dict` item assignment: replace the value at an existing key in
place, otherwise append the new pair at the end. -/
def JObj.set (o : JObj) (key : Str) (v : Json) : JObj :=
  match o with
  | .nil => .cons key v .nil
  | .cons k v' t => if k = key then .cons k v t else .cons k v' (t.set key v)

/-- Convert a `JArr` to a Lean list of values. -/
def JArr.toList : JArr → List Json
  | .nil => []
  | .cons h t => h :: t.toList

/-- Build a `JArr` from a Lean list of values. -/
def JArr.ofList : List Json → JArr
  | [] => .nil
  | h :: t => .cons h (JArr.ofList t)

/-- Build a `JObj` from a Lean association list (used for literals). -/
def JObj.ofList : List (Str × Json) → JObj
  | [] => .nil
  | (k, v) :: t => .cons k v (JObj.ofList t)

/-- Python truthiness of a value that came out of `json.loads`. -/
def jsonTruthy : Json → Bool
  | .str s => !s.isEmpty
  | .num lit => !(lit.all (fun c => c = '0' || c = '-' || c = '.'))
  | .tru => true
  | .fls => false
  | .nul => false
  | .arr a => match a with | .nil => false | .cons _ _ => true
  | .obj o => match o with | .nil => false | .cons _ _ _ => true

/-- Python truthiness of an optional value (`none` stands for a missing
key, which Python reads as `None`). -/
def optTruthy : Option Json → Bool
  | none => false
  | some v => jsonTruthy v

/-- JSON whitespace accepted by `json.loads`. -/
def isWs (c : Char) : Bool := c == ' ' || c == '\t' || c == '\n' || c == '\r'

/-- Skip leading JSON whitespace. -/
def skipWs : Str → Str
  | [] => []
  | c :: t => if isWs c then skipWs t else c :: t

/-- Decode one JSON string escape character (the `\uXXXX` form is not
modelled; no input in this development contains a backslash). -/
def escChar (c : Char) : Option Char :=
  if c = dqc then some dqc
  else if c = bsc then some bsc
  else if c = '/' then some '/'
  else if c = 'n' then some '\n'
  else if c = 't' then some '\t'
  else if c = 'r' then some '\r'
  else if c = 'b' then some (Char.ofNat 8)
  else if c = 'f' then some (Char.ofNat 12)
  else none

/-- Scan a JSON string body after its opening quote; return the decoded
content and the remainder after the closing quote. -/
def scanStr : Str → Option (Str × Str)
  | [] => none
  | c :: t =>
    if c = dqc then some ([], t)
    else if c = bsc then
      match t with
      | [] => none
      | e :: t2 =>
        match escChar e with
        | some ec => (scanStr t2).map (fun p => (ec :: p.1, p.2))
        | none => none
    else (scanStr t).map (fun p => (c :: p.1, p.2))

/-- Take a maximal run of decimal digits. -/
def scanDigits : Str → Str × Str
  | [] => ([], [])
  | c :: t =>
    if c.isDigit then
      let (ds, r) := scanDigits t
      (c :: ds, r)
    else ([], c :: t)

/-- Scan the optional fraction part of a JSON number lexeme. -/
def scanFrac (s : Str) : Option (Str × Str) :=
  match s with
  | d :: r2 =>
    if d = '.' then
      match scanDigits r2 with
      | ([], _) => none
      | (ds, r3) => some (d :: ds, r3)
    else some ([], s)
  | [] => some ([], s)

/-- Scan the optional exponent part of a JSON number lexeme. -/
def scanExp (s : Str) : Option (Str × Str) :=
  match s with
  | e :: r2 =>
    if e = 'e' || e = 'E' then
      let (sgn, r3) :=
        match r2 with
        | c2 :: t2 => if c2 = '+' || c2 = '-' then (([c2] : Str), t2) else (([] : Str), r2)
        | [] => (([] : Str), ([] : Str))
      match scanDigits r3 with
      | ([], _) => none
      | (ds, r4) => some (e :: sgn ++ ds, r4)
    else some ([], s)
  | [] => some ([], s)

/-- Scan a JSON number lexeme (`-?int(.frac)?((e|E)sign?digits)?` with
the strict integer-part grammar of RFC 8259); return lexeme and rest. -/
def scanNum (s : Str) : Option (Str × Str) :=
  let (negPart, s1) :=
    match s with
    | c :: t => if c = '-' then (([c] : Str), t) else (([] : Str), s)
    | [] => (([] : Str), ([] : Str))
  let ipr : Option (Str × Str) :=
    match s1 with
    | [] => none
    | c :: t =>
      if c = '0' then some ([c], t)
      else if c.isDigit then
        let (ds, r) := scanDigits t
        some (c :: ds, r)
      else none
  match ipr with
  | none => none
  | some (ip, rest) =>
    match scanFrac rest with
    | none => none
    | some (fp, rest2) =>
      match scanExp rest2 with
      | none => none
      | some (ep, rest3) => some (negPart ++ ip ++ fp ++ ep, rest3)

mutual
/-- Parse one JSON value (fuel-structural recursive descent mirroring
`json.loads`). -/
def parseVal : Nat → Str → Option (Json × Str)
  | 0, _ => none
  | n + 1, s =>
    match skipWs s with
    | [] => none
    | c :: t =>
      if c = dqc then (scanStr t).map (fun p => (Json.str p.1, p.2))
      else if c = lbc then parseObjRest n (skipWs t)
      else if c = '[' then parseArrRest n (skipWs t)
      else if c = 't' then if isPre "rue".data t then some (Json.tru, t.drop 3) else none
      else if c = 'f' then if isPre "alse".data t then some (Json.fls, t.drop 4) else none
      else if c = 'n' then if isPre "ull".data t then some (Json.nul, t.drop 3) else none
      else (scanNum (c :: t)).map (fun p => (Json.num p.1, p.2))

/-- Parse an object after its opening brace (whitespace already skipped). -/
def parseObjRest : Nat → Str → Option (Json × Str)
  | 0, _ => none
  | n + 1, s =>
    match s with
    | [] => none
    | c :: t =>
      if c = rbc then some (Json.obj .nil, t)
      else if c = dqc then
        match scanStr t with
        | none => none
        | some (key, r1) =>
          match skipWs r1 with
          | ':' :: r2 =>
            match parseVal n r2 with
            | none => none
            | some (v, r3) => parseObjMore n (JObj.nil.set key v) r3
          | _ => none
      else none

/-- Parse the continuation of an object after one key-value pair. -/
def parseObjMore : Nat → JObj → Str → Option (Json × Str)
  | 0, _, _ => none
  | n + 1, acc, s =>
    match skipWs s with
    | c :: t =>
      if c = rbc then some (Json.obj acc, t)
      else if c = ',' then
        match skipWs t with
        | c2 :: t2 =>
          if c2 = dqc then
            match scanStr t2 with
            | none => none
            | some (key, r1) =>
              match skipWs r1 with
              | ':' :: r2 =>
                match parseVal n r2 with
                | none => none
                | some (v, r3) => parseObjMore n (acc.set key v) r3
              | _ => none
          else none
        | [] => none
      else none
    | [] => none

/-- Parse an array after its opening bracket (whitespace already skipped). -/
def parseArrRest : Nat → Str → Option (Json × Str)
  | 0, _ => none
  | n + 1, s =>
    match s with
    | [] => none
    | c :: t =>
      if c = ']' then some (Json.arr .nil, t)
      else
        match parseVal n s with
        | none => none
        | some (v, r1) => parseArrMore n [v] r1

/-- Parse the continuation of an array after one element. -/
def parseArrMore : Nat → List Json → Str → Option (Json × Str)
  | 0, _, _ => none
  | n + 1, acc, s =>
    match skipWs s with
    | c :: t =>
      if c = ']' then some (Json.arr (JArr.ofList acc.reverse), t)
      else if c = ',' then
        match parseVal n t with
        | none => none
        | some (v, r1) => parseArrMore n (v :: acc) r1
      else none
    | [] => none
end

/-- Embedded `json.loads`: parse a complete document, requiring only whitespace
after the value. -/
def jsonLoads (s : Str) : Option Json :=
  match parseVal (s.length + 2) s with
  | some (v, rest) => if (skipWs rest).isEmpty then some v else none
  | none => none

/-- A single-quoted word, as the normalizer emits inside its rewrites. -/
def qw (s : String) : Str := sqc :: s.data ++ [sqc]

/-- A single-quoted character-list payload. -/
def sq1 (x : Str) : Str := sqc :: x ++ [sqc]

/-- The struct member literal for a piece holding exactly one colon: a
braced pair of quoted Name and Type entries, with the exact spacing
(one blank after each colon) that the source emits in this branch. -/
def mkField1 (a b : Str) : Str :=
  lbc :: qw "Name" ++ ':' :: ' ' :: sq1 a ++ '|' :: qw "Type" ++ ':' :: ' ' :: sq1 b ++ [rbc]

/-- The struct member literal for a piece holding zero or several
colons: a braced quoted Name entry followed by the remainder of the
piece spliced in verbatim, with no blanks. -/
def mkFieldN (name nf : Str) : Str :=
  lbc :: qw "Name" ++ ':' :: sq1 name ++ '|' :: nf ++ [rbc]

/-- One struct member piece, dispatching on its colon count as the
source does: the one-colon branch mirrors the colon split, the other
the colon find and its slicing, including the failure value -1 when no
colon occurs. -/
def mkStructField (f : Str) : Str :=
  if countChar ':' f = 1 then
    let i := (findChar ':' f).getD 0
    mkField1 (f.take i) (f.drop (i + 1))
  else
    let np := pyFindC ':' f
    mkFieldN (pySliceTo f np) (pySliceFrom f (np + 1))

/-- The bracketed member list built from a struct body split on commas. -/
def fieldsLit (content : Str) : Str :=
  '[' :: joinSep '|' ((splitOnChar ',' content).map mkStructField) ++ [']']

/-- The struct rewrite spliced back between prefix and suffix. -/
def structSplice (newPrev fields endC : Str) : Str :=
  newPrev ++ qw "Type" ++ ':' :: qw "struct" ++ '|' :: qw "Fields" ++ ':' :: fields ++ endC

/-- The array rewrite when the body already begins with a resolved,
quoted Type key. -/
def arrSpliceT (newPrev content endC : Str) : Str :=
  newPrev ++ qw "Type" ++ ':' :: qw "array" ++ '|' :: qw "Items" ++ ':' :: lbc :: content ++ rbc :: endC

/-- The array rewrite for a scalar body, quoting the body as a type name. -/
def arrSpliceS (newPrev content endC : Str) : Str :=
  newPrev ++ qw "Type" ++ ':' :: qw "array" ++ '|' :: qw "Items" ++ ':' :: lbc :: qw "Type" ++ ':' :: sq1 content ++ rbc :: [] ++ endC

/-- One iteration of the rewrite loop of `generate_sub_fields`: locate
the right-most `<`, its first following `>`, the enclosed body, the
word before the bracket, and rewrite struct/array groups; a bracket
group preceded by any other word is left untouched.  `indexError`
models the `[-1]` lookup on a string without word characters. -/
def genStep (s : Str) : Except PyErr Str :=
  let p := pyRfind '<' s
  let subText := pySliceFrom s p
  let closing := p + pyFindC '>' subText
  let content := pySlice s (p + 1) closing
  let prev := pySliceTo s p
  let endC := pySliceFrom s (closing + 1)
  match lastWord prev with
  | none => .error .indexError
  | some w =>
    if w = "struct".data then
      .ok (structSplice (pySliceTo prev (-6)) (fieldsLit content) endC)
    else if w = "array".data then
      if isPre (qw "Type") content then .ok (arrSpliceT (pySliceTo prev (-5)) content endC)
      else .ok (arrSpliceS (pySliceTo prev (-5)) content endC)
    else .ok s

/-- Run the rewrite step a fixed number of times, as the source loops
exactly `count("<")` times. -/
def iterateStep : Nat → Str → Except PyErr Str
  | 0, s => .ok s
  | n + 1, s => do
    let s2 ← genStep s
    iterateStep n s2

/-- The final textual substitutions: `|` to `,`, then single quotes to
double quotes. -/
def genReplace (s : Str) : Str :=
  (s.map (fun c => if c = '|' then ',' else c)).map (fun c => if c = sqc then dqc else c)

/-- Wrap the rewritten string in one outer pair of braces. -/
def genWrap (s : Str) : Str := lbc :: s ++ [rbc]

/-- Embedded `generate_sub_fields`: rewrite loop, substitutions, wrapping, and
the final `json.loads`; a parse failure is the raised decode error. -/
def genSubFields (s : Str) : Except PyErr Json := do
  let f ← iterateStep (countChar '<' s) s
  match jsonLoads (genWrap (genReplace f)) with
  | some j => .ok j
  | none => .error .jsonDecode

/-- Python subscription `j[key]`: `keyError` on a missing key of a
dict, `typeError` on a non-dict. -/
def jsonIndex (j : Json) (key : Str) : Except PyErr Json :=
  match j with
  | .obj o =>
    match o.get key with
    | some v => .ok v
    | none => .error .keyError
  | _ => .error .typeError

/-- Embedded `format_schema` on one column record: composite type strings are
normalized and the record is updated in place (`Items`/`Fields` stored,
`Type` overwritten with the composite tag); other records pass through. -/
def formatColumn (col : Json) : Except PyErr Json :=
  match col with
  | .obj o =>
    match o.get "Type".data with
    | some (.str t) =>
      if isPre "array<".data t then do
        let j ← genSubFields t
        let items ← jsonIndex j "Items".data
        .ok (.obj ((o.set "Items".data items).set "Type".data (.str "array".data)))
      else if isPre "struct<".data t then do
        let j ← genSubFields t
        let flds ← jsonIndex j "Fields".data
        .ok (.obj ((o.set "Fields".data flds).set "Type".data (.str "struct".data)))
      else .ok col
    | some _ => .error .attributeError
    | none => .error .keyError
  | _ => .error .typeError

/-- Embedded `format_schema` over the whole column list; the returned list is the
post-state of the records the loop mutated. -/
def formatSchema : List Json → Except PyErr (List Json)
  | [] => .ok []
  | c :: t => do
    let c2 ← formatColumn c
    let t2 ← formatSchema t
    .ok (c2 :: t2)

/-- Embedded `map_type_from_sql` on a present string, the ordered case-insensitive
first-match prefix chain of the source. -/
def mapTypeFromSqlStr (t : Str) : Str :=
  if isPre "varchar".data (lowerStr t) then "varchar".data
  else if isPre "string".data (lowerStr t) then "string".data
  else if isPre "text".data (lowerStr t) then "text".data
  else if isPre "byte".data (lowerStr t) then "byte".data
  else if isPre "short".data (lowerStr t) then "short".data
  else if isPre "integer".data (lowerStr t) then "integer".data
  else if isPre "long".data (lowerStr t) then "long".data
  else if isPre "bigint".data (lowerStr t) then "long".data
  else if isPre "float".data (lowerStr t) then "float".data
  else if isPre "double".data (lowerStr t) then "double".data
  else if isPre "boolean".data (lowerStr t) then "boolean".data
  else if isPre "timestamp".data (lowerStr t) then "timestamp".data
  else if isPre "date".data (lowerStr t) then "date".data
  else if isPre "array".data (lowerStr t) then "array".data
  else if isPre "struct".data (lowerStr t) then "struct".data
  else "variant".data

/-- Embedded `map_type_from_sql` including the `None` propagation of the source. -/
def mapTypeFromSqlOpt : Option Str → Option Str
  | none => none
  | some t => some (mapTypeFromSqlStr t)

/-- Embedded `map_type_from_sql` applied to a value read out of a record with
`.get`: a missing key or JSON null is Python `None` and propagates as
absent; a non-string value has no `.lower` and raises. -/
def mapTypeValue : Option Json → Except PyErr (Option Str)
  | none => .ok none
  | some .nul => .ok none
  | some (.str s) => .ok (some (mapTypeFromSqlStr s))
  | some _ => .error .attributeError

/-- Modelled from the spec: the ordered prefix table of the
TypeNameMapper contract in section 4.4, first match wins, with the
`variant` fallback for unmatched names. -/
def specTypeTable : List (Str × Str) :=
  [("varchar".data, "varchar".data), ("string".data, "string".data),
   ("text".data, "text".data), ("byte".data, "byte".data),
   ("short".data, "short".data), ("integer".data, "integer".data),
   ("long".data, "long".data), ("bigint".data, "long".data),
   ("float".data, "float".data), ("double".data, "double".data),
   ("boolean".data, "boolean".data), ("timestamp".data, "timestamp".data),
   ("date".data, "date".data), ("array".data, "array".data),
   ("struct".data, "struct".data)]

/-- Modelled from the spec: first case-insensitive prefix match in an
ordered table, or `variant` when no row matches. -/
def tableMatch : List (Str × Str) → Str → Str
  | [], _ => "variant".data
  | (p, c) :: r, t => if isPre p (lowerStr t) then c else tableMatch r t

mutual
/-- Modelled from the spec: the caller-facing Field record of section 3
(`type`, `required`, `description`, `fields`, `items`, each absent until
assigned).  The class itself lives outside the analysed sources, so the
attribute holding sub-fields is `FieldsOpt`, which also admits the
single-Field value that line 228 of the source stores there. -/
inductive GField where
  | mk (ftype : Option Str) (frequired : Option Bool) (fdescription : Option Json)
      (ffields : FieldsOpt) (fitems : ItemsOpt)
  deriving DecidableEq
/-- The value stored in `fields`: absent, the name-to-Field mapping of
the spec, or the single Field the buggy array branch assigns. -/
inductive FieldsOpt where
  | fnone
  | fmap (m : FieldMapL)
  | fsingle (f : GField)
  deriving DecidableEq
/-- The value stored in `items`: absent or one Field. -/
inductive ItemsOpt where
  | inone
  | isome (f : GField)
  deriving DecidableEq
/-- The insertion-ordered mapping from column name (a `.get("Name")`
value, possibly absent) to built GField. -/
inductive FieldMapL where
  | nil
  | cons (k : Option Json) (v : GField) (t : FieldMapL)
  deriving DecidableEq
end

/-- The `type` attribute of a built GField. -/
def GField.ftype : GField → Option Str
  | .mk t _ _ _ _ => t

/-- The `required` attribute of a built GField. -/
def GField.frequired : GField → Option Bool
  | .mk _ r _ _ _ => r

/-- The `description` attribute of a built GField. -/
def GField.fdescription : GField → Option Json
  | .mk _ _ d _ _ => d

/-- The `fields` attribute of a built GField. -/
def GField.ffields : GField → FieldsOpt
  | .mk _ _ _ f _ => f

/-- The `items` attribute of a built GField. -/
def GField.fitems : GField → ItemsOpt
  | .mk _ _ _ _ i => i

/-- Python dict assignment on the imported-fields mapping: replace the
value at the first equal key in place, else append. -/
def FieldMapL.set (m : FieldMapL) (key : Option Json) (v : GField) : FieldMapL :=
  match m with
  | .nil => .cons key v .nil
  | .cons k v' t => if k = key then .cons k v t else .cons k v' (t.set key v)

/-- Python dict lookup on the imported-fields mapping. -/
def FieldMapL.get (key : Option Json) : FieldMapL → Option GField
  | .nil => none
  | .cons k v t => if k = key then some v else FieldMapL.get key t

/-- The dict key `field.get("Name")` used by `import_record_fields`. -/
def recKey : Json → Option Json
  | .obj o => o.get "Name".data
  | _ => none

mutual
/-- Embedded `import_record_fields` body for one record: required from `Hive`
truthiness, description from `Comment`, then the struct/array/scalar
dispatch on the mapped type. -/
def importOneFieldF : Nat → Json → Except PyErr GField
  | 0, _ => .error .fuelOut
  | n + 1, fld =>
    match fld with
    | .obj o => do
      let ft ← mapTypeValue (o.get "Type".data)
      let req := optTruthy (o.get "Hive".data)
      let desc := o.get "Comment".data
      if ft = some "struct".data then do
        let m ← importRecordValF n (o.get "Fields".data)
        .ok (.mk ft (some req) desc (.fmap m) .inone)
      else if ft = some "array".data then do
        let it ← importArrayFieldF n (o.get "Items".data)
        .ok (.mk ft (some req) desc .fnone (.isome it))
      else .ok (.mk ft (some req) desc .fnone .inone)
    | _ => .error .attributeError

/-- Embedded `import_record_fields` applied to a fetched attribute value: only a
JSON array iterates into records; an empty dict or empty string also
iterates to nothing; anything else raises while iterating or on the
first element. -/
def importRecordValF : Nat → Option Json → Except PyErr FieldMapL
  | 0, _ => .error .fuelOut
  | n + 1, v =>
    match v with
    | some (.arr a) => importRecordGoF n .nil a.toList
    | some (.str s) => if s.isEmpty then .ok .nil else .error .attributeError
    | some (.obj .nil) => .ok .nil
    | some (.obj (.cons _ _ _)) => .error .attributeError
    | _ => .error .typeError

/-- The iteration of `import_record_fields`: build each GField and store
it under the record name, last write winning. -/
def importRecordGoF : Nat → FieldMapL → List Json → Except PyErr FieldMapL
  | 0, _, _ => .error .fuelOut
  | _ + 1, acc, [] => .ok acc
  | n + 1, acc, c :: t => do
    let fld ← importOneFieldF n c
    importRecordGoF n (acc.set (recKey c) fld) t

/-- Embedded `import_array_field`: builds the items GField; note that its array
branch stores the recursive result in the `fields` attribute (source
line 228), not in `items`. -/
def importArrayFieldF : Nat → Option Json → Except PyErr GField
  | 0, _ => .error .fuelOut
  | n + 1, v =>
    match v with
    | some (.obj o) => do
      let ft ← mapTypeValue (o.get "Type".data)
      if ft = some "struct".data then do
        let m ← importRecordValF n (o.get "Fields".data)
        .ok (.mk ft none none (.fmap m) .inone)
      else if ft = some "array".data then do
        let f ← importArrayFieldF n (o.get "Items".data)
        .ok (.mk ft none none (.fsingle f) .inone)
      else .ok (.mk ft none none .fnone .inone)
    | _ => .error .attributeError
end

/-- Embedded `import_record_fields` on a column list with the given fuel. -/
def importRecordFieldsF (n : Nat) (cols : List Json) : Except PyErr FieldMapL :=
  importRecordGoF n .nil cols

/-- A string-valued Json literal helper. -/
def jstr (s : String) : Json := .str s.data

/-- A Json object literal helper over string keys. -/
def jobjL (l : List (String × Json)) : Json :=
  .obj (JObj.ofList (l.map (fun p => (p.1.data, p.2))))

/-- A Json array literal helper. -/
def jarrL (l : List Json) : Json := .arr (JArr.ofList l)

/-- The whole core pipeline on a column list: `format_schema` followed by
`import_record_fields`, as `get_glue_table_schema` and `import_glue`
compose them. -/
def importPipeline (n : Nat) (cols : List Json) : Except PyErr FieldMapL := do
  let cols2 ← formatSchema cols
  importRecordFieldsF n cols2

/-- Look a name up in the `fields` mapping of a built Field, when that
attribute holds a mapping. -/
def subField (f : GField) (k : String) : Option GField :=
  match f.ffields with
  | .fmap m => m.get (some (jstr k))
  | _ => none

/-- The `items` child of a built Field, if present. -/
def itemField (f : GField) : Option GField :=
  match f.fitems with
  | .isome f2 => some f2
  | _ => none

/-- Fetch a top-level Field by column name from a pipeline result. -/
def exGet (r : Except PyErr FieldMapL) (k : String) : Option GField :=
  match r with
  | .ok m => m.get (some (jstr k))
  | .error _ => none

/-- The column record of scenario 4: `struct<a:string,b:array<int>>`. -/
def c1col : Json := jobjL [("Name", jstr "c"), ("Type", jstr "struct<a:string,b:array<int>>")]

/-- The exact field map the pipeline builds for `c1col`. -/
def c1map : FieldMapL :=
  .cons (some (jstr "c"))
    (.mk (some "struct".data) (some false) none
      (.fmap (.cons (some (jstr "a"))
        (.mk (some "string".data) (some false) none .fnone .inone)
        (.cons (some (jstr "b"))
          (.mk (some "array".data) (some false) none .fnone
            (.isome (.mk (some "variant".data) none none .fnone .inone)))
          .nil)))
      .inone)
    .nil

deriving instance DecidableEq for Except

set_option maxRecDepth 40000

/-- C1, counterexample: in the tree built for
`struct<a:string,b:array<int>>`, the items Field of member `b` has type
`variant`, not `integer`, because `int` does not carry any recognized
prefix of `map_type_from_sql`. -/
theorem c1_counterexample :
    ((exGet (importPipeline 9 [c1col]) "c").bind (fun f => subField f "b")
      |>.bind itemField |>.bind GField.ftype) ≠ some "integer".data := by
  decide

/-- C1, amended: the pipeline on `struct<a:string,b:array<int>>` builds a
struct Field whose mapping holds exactly `a` of type `string` and then
`b` of type `array` (order `[a, b]` preserved), the items child of `b`
having type `variant`.  The equality pins the whole built value. -/
theorem c1_amended_pipeline : importPipeline 9 [c1col] = .ok c1map := by
  decide

/-- The unbalanced raw type string of C2. -/
def c2type : Str := "struct<a:string".data

/-- A column record carrying the unbalanced type string of C2. -/
def c2col : Json := jobjL [("Name", jstr "s"), ("Type", jstr "struct<a:string")]

/-- C2, counterexample: on the unbalanced input `struct<a:string` the
normalizer does not raise the `UnbalancedBracketsError` named by the
specification (no code path produces that error kind). -/
theorem c2_counterexample :
    genSubFields c2type ≠ .error .unbalancedBrackets := by
  decide

/-- C2, amended: on `struct<a:string` the normalizer fails with the
generic JSON decode error of the final `json.loads`, and the error is
surfaced uncaught through `format_schema` and the import pipeline. -/
theorem c2_amended_error :
    genSubFields c2type = .error .jsonDecode ∧
    formatSchema [c2col] = .error .jsonDecode ∧
    importPipeline 9 [c2col] = .error .jsonDecode := by
  exact ⟨by decide, by decide, by decide⟩

/-- The nested-array column of C3. -/
def c3col : Json := jobjL [("Name", jstr "a"), ("Type", jstr "array<array<int>>")]

/-- The exact field map the pipeline builds for `c3col`: the nested array
Field keeps `items` absent and stores a single Field in `fields`. -/
def c3map : FieldMapL :=
  .cons (some (jstr "a"))
    (.mk (some "array".data) (some false) none .fnone
      (.isome (.mk (some "array".data) none none
        (.fsingle (.mk (some "variant".data) none none .fnone .inone)) .inone)))
    .nil

/-- C3, evaluation at the failing input: for `array<array<int>>` the
Field built for the inner array has type `array` yet carries no `items`
child; instead its `fields` attribute holds a single Field (the
`items.fields = import_array_field(...)` assignment of source line 228),
violating the present-iff-composite-kind invariant. -/
theorem c3_bug_eval :
    importPipeline 9 [c3col] = .ok c3map ∧
    ((exGet (importPipeline 9 [c3col]) "a").bind itemField |>.bind GField.ftype)
      = some "array".data ∧
    ((exGet (importPipeline 9 [c3col]) "a").bind itemField |>.bind itemField) = none ∧
    ((exGet (importPipeline 9 [c3col]) "a").bind itemField |>.map GField.ffields)
      = some (.fsingle (.mk (some "variant".data) none none .fnone .inone)) := by
  exact ⟨by decide, by decide, by decide, by decide⟩

/-- The composite column record of C4. -/
def c4col : Json := jobjL [("Name", jstr "a"), ("Type", jstr "array<int>")]

/-- The post-state of `c4col` after `format_schema` ran over it. -/
def c4colAfter : Json :=
  jobjL [("Name", jstr "a"), ("Type", jstr "array"), ("Items", jobjL [("Type", jstr "int")])]

/-- C4, counterexample: `format_schema` rewrites a composite column
record in place, so the record the catalog collaborator handed in is
changed by the run: its `Type` value becomes `array` and an `Items`
entry is attached, hence the post-state differs from the input record. -/
theorem c4_counterexample :
    formatSchema [c4col] = .ok [c4colAfter] ∧ c4colAfter ≠ c4col := by
  exact ⟨by decide, by decide⟩

/-- C4, amended: only composite columns are mutated; a schema whose
records all carry a non-composite string `Type` passes through
`format_schema` unchanged. -/
theorem c4_amended_noncomposite_unchanged : ∀ cols : List Json,
    (∀ c ∈ cols, ∃ o t, c = Json.obj o ∧ JObj.get "Type".data o = some (.str t) ∧
      isPre "array<".data t = false ∧ isPre "struct<".data t = false) →
    formatSchema cols = .ok cols := by
  intro cols
  induction cols with
  | nil => intro _; rfl
  | cons c t ih =>
    intro h
    obtain ⟨o, ty, hc, hget, h1, h2⟩ := h c (List.mem_cons_self c t)
    have htail := ih (fun x hx => h x (List.mem_cons_of_mem _ hx))
    subst hc
    have hcol : formatColumn (Json.obj o) = Except.ok (Json.obj o) := by
      simp [formatColumn, hget, h1, h2]
    simp only [formatSchema, hcol, htail]
    rfl

/-- The scalar column used to witness C4. -/
def c4wcol : Json := jobjL [("Name", jstr "id"), ("Type", jstr "bigint")]

/-- Witness for C4: the amended theorem applied to one concrete scalar
column, whose hypothesis evaluates away. -/
theorem c4_witness : formatSchema [c4wcol] = .ok [c4wcol] := by
  exact c4_amended_noncomposite_unchanged [c4wcol]
    (by
      intro c hc
      rw [List.mem_singleton] at hc
      subst hc
      exact ⟨_, "bigint".data, rfl, by decide, by decide, by decide⟩)

/-- The prefix chain of `map_type_from_sql` agrees with the ordered
first-match table lookup everywhere (shared by the C5 and C9 proofs). -/
theorem mapType_eq_tableMatch : ∀ t : Str, mapTypeFromSqlStr t = tableMatch specTypeTable t := by
  intro t
  rfl

/-- C5: `map_type_from_sql` is the pure ordered case-insensitive prefix
table of the spec — first match wins, `bigint` to `long`, each other
recognized prefix to its listed name, everything else (the empty string
included) to `variant` — and an absent input propagates as absent. -/
theorem c5_type_name_mapper :
    (∀ t : Str, mapTypeFromSqlStr t = tableMatch specTypeTable t) ∧
    mapTypeFromSqlOpt none = none ∧
    mapTypeFromSqlStr [] = "variant".data ∧
    (∀ t : Str, mapTypeFromSqlOpt (some t) = some (tableMatch specTypeTable t)) := by
  refine ⟨mapType_eq_tableMatch, rfl, by decide, ?_⟩
  intro t
  simp [mapTypeFromSqlOpt, mapType_eq_tableMatch t]

/-- Bind on a successful `Except` computation steps into the
continuation. -/
theorem bindOk {α β : Type} (a : α) (f : α → Except PyErr β) :
    (Except.ok a >>= f) = f a := rfl

/-- Bind on a failed `Except` computation keeps the error. -/
theorem bindErr {α β : Type} (e : PyErr) (f : α → Except PyErr β) :
    ((Except.error e : Except PyErr α) >>= f) = .error e := rfl

/-- Whatever record object `import_record_fields` succeeds on, the built
Field reads `required` from the truthiness of the `Hive` entry and
`description` from the `Comment` entry of that very record (shared by
the C6 and C7 arguments). -/
theorem importOne_req_desc : ∀ (n : Nat) (o : JObj) (fld : GField),
    importOneFieldF n (Json.obj o) = .ok fld →
    fld.frequired = some (optTruthy (JObj.get "Hive".data o)) ∧
    fld.fdescription = JObj.get "Comment".data o := by
  intro n o fld h
  cases n with
  | zero => simp [importOneFieldF] at h
  | succ n =>
    simp only [importOneFieldF] at h
    cases hft : mapTypeValue (JObj.get "Type".data o) with
    | error e => rw [hft] at h; simp [bindErr] at h
    | ok ft =>
      rw [hft] at h
      simp only [bindOk] at h
      by_cases h1 : ft = some "struct".data
      · rw [if_pos h1] at h
        cases hm : importRecordValF n (JObj.get "Fields".data o) with
        | error e => rw [hm] at h; simp [bindErr] at h
        | ok m =>
          rw [hm] at h
          simp only [bindOk, Except.ok.injEq] at h
          subst h
          exact ⟨rfl, rfl⟩
      · rw [if_neg h1] at h
        by_cases h2 : ft = some "array".data
        · rw [if_pos h2] at h
          cases hm : importArrayFieldF n (JObj.get "Items".data o) with
          | error e => rw [hm] at h; simp [bindErr] at h
          | ok it =>
            rw [hm] at h
            simp only [bindOk, Except.ok.injEq] at h
            subst h
            exact ⟨rfl, rfl⟩
        · rw [if_neg h2] at h
          simp only [Except.ok.injEq] at h
          subst h
          exact ⟨rfl, rfl⟩

/-- The scenario 1 column: a plain bigint, not a partition key. -/
def c6idCol : Json := jobjL [("Name", jstr "id"), ("Type", jstr "bigint")]

/-- The Field map built for `c6idCol`. -/
def c6idMap : FieldMapL :=
  .cons (some (jstr "id")) (.mk (some "long".data) (some false) none .fnone .inone) .nil

/-- The scenario 2 column: a string partition key (`Hive` flag set). -/
def c6pCol : Json := jobjL [("Name", jstr "p"), ("Type", jstr "string"), ("Hive", Json.tru)]

/-- The Field map built for `c6pCol`. -/
def c6pMap : FieldMapL :=
  .cons (some (jstr "p")) (.mk (some "string".data) (some true) none .fnone .inone) .nil

/-- C6: every successfully imported record yields a top Field whose
`required` equals the truthiness of the partition marker of the record
and whose `description` equals its comment entry; concretely, the bigint
column gives `type long, required false` and the partition-key string
column gives `required true`. -/
theorem c6_required_description :
    (∀ (n : Nat) (o : JObj) (fld : GField), importOneFieldF n (Json.obj o) = .ok fld →
      fld.frequired = some (optTruthy (JObj.get "Hive".data o)) ∧
      fld.fdescription = JObj.get "Comment".data o) ∧
    importPipeline 9 [c6idCol] = .ok c6idMap ∧
    importPipeline 9 [c6pCol] = .ok c6pMap :=
  ⟨importOne_req_desc, by decide, by decide⟩

/-- The record object used to witness C6. -/
def c6wRec : JObj :=
  JObj.ofList [("Name".data, jstr "p"), ("Type".data, jstr "string"), ("Hive".data, Json.tru)]

/-- The Field built from `c6wRec`. -/
def c6wFld : GField := .mk (some "string".data) (some true) none .fnone .inone

/-- Witness for C6: the universal part applied to one concrete record,
with the import equation discharged by evaluation. -/
theorem c6_witness :
    GField.frequired c6wFld = some (optTruthy (JObj.get "Hive".data c6wRec)) ∧
    GField.fdescription c6wFld = JObj.get "Comment".data c6wRec :=
  c6_required_description.1 6 c6wRec c6wFld (by decide)

/-- A prefix test survives appending anything to the tested string. -/
theorem isPre_append (p : Str) : ∀ (l t : Str), isPre p l = true → isPre p (l ++ t) = true := by
  induction p with
  | nil => intro l t _; rfl
  | cons c ps ih =>
    intro l t h
    cases l with
    | nil => simp [isPre] at h
    | cons a ls =>
      simp only [isPre, Bool.and_eq_true, beq_iff_eq] at h
      simp only [List.cons_append, isPre, Bool.and_eq_true, beq_iff_eq]
      exact ⟨h.1, ih ls t h.2⟩

/-- A failed prefix test stays failed after appending a suffix that opens
with a character the pattern does not contain. -/
theorem isPre_append_break (p : Str) : ∀ (l mid : Str), (∀ c ∈ p, c ≠ '(') →
    isPre p l = false → isPre p (l ++ '(' :: mid) = false := by
  induction p with
  | nil => intro l mid _ h; simp [isPre] at h
  | cons c ps ih =>
    intro l mid hp h
    cases l with
    | nil =>
      have hc : c ≠ '(' := hp c (List.mem_cons_self c ps)
      simp [isPre, hc]
    | cons a ls =>
      simp only [isPre, Bool.and_eq_false_iff] at h
      simp only [List.cons_append, isPre, Bool.and_eq_false_iff]
      rcases h with h | h
      · exact Or.inl h
      · exact Or.inr (ih ls mid (fun x hx => hp x (List.mem_cons_of_mem c hx)) h)

/-- Appending a parenthesized suffix never changes any prefix test of the
mapper table, since no table prefix contains a parenthesis. -/
theorem condStable (p s mid : Str) (hp : ∀ c ∈ p, c ≠ '(') :
    isPre p (lowerStr (s ++ '(' :: mid)) = isPre p (lowerStr s) := by
  have hpar : Char.toLower '(' = '(' := by decide
  have hl : lowerStr (s ++ '(' :: mid) = lowerStr s ++ '(' :: lowerStr mid := by
    simp [lowerStr, hpar]
  rw [hl]
  cases h : isPre p (lowerStr s) with
  | true => exact isPre_append p (lowerStr s) ('(' :: lowerStr mid) h
  | false => exact isPre_append_break p (lowerStr s) (lowerStr mid) hp h

/-- C9: for a scalar string matching a recognized prefix, the mapper is
stable under appending a parenthesized length or precision suffix. -/
theorem c9_paren_suffix_stable : ∀ (s mid : Str),
    (∃ p ∈ specTypeTable.map Prod.fst, isPre p (lowerStr s) = true) →
    mapTypeFromSqlStr (s ++ ('(' :: (mid ++ [')']))) = mapTypeFromSqlStr s := by
  intro s mid _h
  have e : ∀ p : Str, (∀ c ∈ p, c ≠ '(') →
      isPre p (lowerStr (s ++ '(' :: (mid ++ [')']))) = isPre p (lowerStr s) :=
    fun p hp => condStable p s (mid ++ [')']) hp
  simp only [mapTypeFromSqlStr]
  rw [e "varchar".data (by decide), e "string".data (by decide), e "text".data (by decide),
    e "byte".data (by decide), e "short".data (by decide), e "integer".data (by decide),
    e "long".data (by decide), e "bigint".data (by decide), e "float".data (by decide),
    e "double".data (by decide), e "boolean".data (by decide), e "timestamp".data (by decide),
    e "date".data (by decide), e "array".data (by decide), e "struct".data (by decide)]

/-- Witness for C9: `varchar(255)` and `varchar` map identically, via the
theorem applied at the concrete string and suffix. -/
theorem c9_witness :
    (∃ p ∈ specTypeTable.map Prod.fst, isPre p (lowerStr "varchar".data) = true) ∧
    mapTypeFromSqlStr "varchar(255)".data = mapTypeFromSqlStr "varchar".data :=
  ⟨⟨"varchar".data, by decide, by decide⟩,
    c9_paren_suffix_stable "varchar".data "255".data ⟨"varchar".data, by decide, by decide⟩⟩

/-- One more unit of fuel never changes a successful import result (all
four builders at once, by induction on the fuel). -/
theorem importMono : ∀ n : Nat,
    (∀ c r, importOneFieldF n c = .ok r → importOneFieldF (n + 1) c = .ok r) ∧
    (∀ v r, importRecordValF n v = .ok r → importRecordValF (n + 1) v = .ok r) ∧
    (∀ acc l r, importRecordGoF n acc l = .ok r → importRecordGoF (n + 1) acc l = .ok r) ∧
    (∀ v r, importArrayFieldF n v = .ok r → importArrayFieldF (n + 1) v = .ok r) := by
  intro n
  induction n with
  | zero =>
    refine ⟨?_, ?_, ?_, ?_⟩
    · intro c r h; simp [importOneFieldF] at h
    · intro v r h; simp [importRecordValF] at h
    · intro acc l r h; simp [importRecordGoF] at h
    · intro v r h; simp [importArrayFieldF] at h
  | succ n ih =>
    obtain ⟨ih1, ih2, ih3, ih4⟩ := ih
    refine ⟨?_, ?_, ?_, ?_⟩
    · intro c r h
      cases c with
      | obj o =>
        simp only [importOneFieldF] at h ⊢
        cases hft : mapTypeValue (JObj.get "Type".data o) with
        | error e => rw [hft] at h; simp [bindErr] at h
        | ok ft =>
          rw [hft] at h
          simp only [bindOk] at h ⊢
          by_cases h1 : ft = some "struct".data
          · rw [if_pos h1] at h ⊢
            cases hm : importRecordValF n (JObj.get "Fields".data o) with
            | error e => rw [hm] at h; simp [bindErr] at h
            | ok m => rw [hm] at h; rw [ih2 _ _ hm]; exact h
          · rw [if_neg h1] at h ⊢
            by_cases h2 : ft = some "array".data
            · rw [if_pos h2] at h ⊢
              cases hm : importArrayFieldF n (JObj.get "Items".data o) with
              | error e => rw [hm] at h; simp [bindErr] at h
              | ok it => rw [hm] at h; rw [ih4 _ _ hm]; exact h
            · rw [if_neg h2] at h ⊢; exact h
      | str s => simp [importOneFieldF] at h
      | num l => simp [importOneFieldF] at h
      | tru => simp [importOneFieldF] at h
      | fls => simp [importOneFieldF] at h
      | nul => simp [importOneFieldF] at h
      | arr a => simp [importOneFieldF] at h
    · intro v r h
      cases v with
      | none => simp [importRecordValF] at h
      | some j =>
        cases j with
        | arr a =>
          simp only [importRecordValF] at h ⊢
          exact ih3 _ _ _ h
        | str s => simpa [importRecordValF] using h
        | obj o => cases o with
          | nil => simpa [importRecordValF] using h
          | cons k v' t => simp [importRecordValF] at h
        | num l => simp [importRecordValF] at h
        | tru => simp [importRecordValF] at h
        | fls => simp [importRecordValF] at h
        | nul => simp [importRecordValF] at h
    · intro acc l r h
      cases l with
      | nil => simpa [importRecordGoF] using h
      | cons c t =>
        simp only [importRecordGoF] at h ⊢
        cases hf : importOneFieldF n c with
        | error e => rw [hf] at h; simp [bindErr] at h
        | ok fld =>
          rw [hf] at h
          rw [ih1 _ _ hf]
          simp only [bindOk] at h ⊢
          exact ih3 _ _ _ h
    · intro v r h
      cases v with
      | none => simp [importArrayFieldF] at h
      | some j =>
        cases j with
        | obj o =>
          simp only [importArrayFieldF] at h
          cases hft : mapTypeValue (JObj.get "Type".data o) with
          | error e => rw [hft] at h; simp [bindErr] at h
          | ok ft =>
            rw [hft] at h
            simp only [bindOk] at h
            by_cases h1 : ft = some "struct".data
            · rw [if_pos h1] at h
              cases hm : importRecordValF n (JObj.get "Fields".data o) with
              | error e => rw [hm] at h; simp [bindErr] at h
              | ok m =>
                rw [hm] at h
                simp only [bindOk, Except.ok.injEq] at h
                subst h
                have hv := ih2 _ _ hm
                generalize n + 1 = k at hv ⊢
                simp [importArrayFieldF, hft, h1, hv, bindOk]
            · rw [if_neg h1] at h
              by_cases h2 : ft = some "array".data
              · rw [if_pos h2] at h
                cases hm : importArrayFieldF n (JObj.get "Items".data o) with
                | error e => rw [hm] at h; simp [bindErr] at h
                | ok it =>
                  rw [hm] at h
                  simp only [bindOk, Except.ok.injEq] at h
                  subst h
                  have hv := ih4 _ _ hm
                  generalize n + 1 = k at hv ⊢
                  simp [importArrayFieldF, hft, h1, h2, hv, bindOk]
              · rw [if_neg h2] at h
                simp only [Except.ok.injEq] at h
                subst h
                generalize n + 1 = k
                simp [importArrayFieldF, hft, h1, h2, bindOk]
        | str s => simp [importArrayFieldF] at h
        | arr a => simp [importArrayFieldF] at h
        | num l => simp [importArrayFieldF] at h
        | tru => simp [importArrayFieldF] at h
        | fls => simp [importArrayFieldF] at h
        | nul => simp [importArrayFieldF] at h

/-- The keys of the imported-fields mapping, in insertion order. -/
def FieldMapL.keys : FieldMapL → List (Option Json)
  | .nil => []
  | .cons k _ t => k :: t.keys

/-- Looking up after a dict assignment: the assigned key reads the new
value, every other key is untouched. -/
theorem FieldMapL.get_set : ∀ (m : FieldMapL) (k k' : Option Json) (v : GField),
    FieldMapL.get k' (m.set k v) = if k = k' then some v else FieldMapL.get k' m
  | .nil, k, k', v => by simp [FieldMapL.set, FieldMapL.get]
  | .cons k0 v0 t, k, k', v => by
    have ih := FieldMapL.get_set t k k' v
    simp only [FieldMapL.set]
    by_cases h0 : k0 = k
    · subst h0
      by_cases h1 : k0 = k'
      · simp [FieldMapL.get, h1]
      · simp [FieldMapL.get, h1]
    · rw [if_neg h0]
      by_cases h1 : k0 = k'
      · have hk : ¬ k = k' := fun he => h0 (h1.trans he.symm)
        simp [FieldMapL.get, h1, hk]
      · simp [FieldMapL.get, h1, ih]

/-- A key present after a dict assignment was present before or is the
assigned key. -/
theorem FieldMapL.mem_keys_set : ∀ (m : FieldMapL) (k : Option Json) (v : GField),
    ∀ x ∈ (m.set k v).keys, x ∈ m.keys ∨ x = k
  | .nil, k, v => by
    intro x hx
    simp [FieldMapL.set, FieldMapL.keys] at hx
    exact Or.inr hx
  | .cons k0 v0 t, k, v => by
    intro x hx
    have ih := FieldMapL.mem_keys_set t k v
    simp only [FieldMapL.set] at hx
    by_cases h0 : k0 = k
    · rw [if_pos h0] at hx
      simp only [FieldMapL.keys, List.mem_cons] at hx
      rcases hx with hx | hx
      · exact Or.inl (by simp [FieldMapL.keys, hx])
      · exact Or.inl (by simp [FieldMapL.keys, hx])
    · rw [if_neg h0] at hx
      simp only [FieldMapL.keys, List.mem_cons] at hx
      rcases hx with hx | hx
      · exact Or.inl (by simp [FieldMapL.keys, hx])
      · rcases ih x hx with hm | hk
        · exact Or.inl (by simp [FieldMapL.keys, hm])
        · exact Or.inr hk

/-- Dict assignment keeps the keys distinct. -/
theorem FieldMapL.keys_nodup_set : ∀ (m : FieldMapL) (k : Option Json) (v : GField),
    m.keys.Nodup → ((m.set k v).keys).Nodup
  | .nil, k, v => by intro _; simp [FieldMapL.set, FieldMapL.keys]
  | .cons k0 v0 t, k, v => by
    intro hn
    have ih := FieldMapL.keys_nodup_set t k v
    simp only [FieldMapL.keys, List.nodup_cons] at hn
    simp only [FieldMapL.set]
    by_cases h0 : k0 = k
    · rw [if_pos h0]
      simp only [FieldMapL.keys, List.nodup_cons]
      exact hn
    · rw [if_neg h0]
      simp only [FieldMapL.keys, List.nodup_cons]
      refine ⟨?_, ih hn.2⟩
      intro hmem
      rcases FieldMapL.mem_keys_set t k v k0 hmem with hm | hk
      · exact hn.1 hm
      · exact h0 hk

/-- The last record of a column list whose `Name` entry equals the given
key (the record a later duplicate insertion would have written). -/
def lastRec (k : Option Json) : List Json → Option Json
  | [] => none
  | c :: t =>
    match lastRec k t with
    | some r => some r
    | none => if recKey c = k then some c else none

/-- The builder loop realizes last-write-wins over any starting
accumulator: a key never named leaves the accumulator entry, a key named
at least once holds the Field of its last record. -/
theorem importGo_lastRec : ∀ (l : List Json) (n : Nat) (acc m : FieldMapL) (k : Option Json),
    importRecordGoF n acc l = .ok m →
    (lastRec k l = none → FieldMapL.get k m = FieldMapL.get k acc) ∧
    (∀ c, lastRec k l = some c →
      ∃ fld, importOneFieldF n c = .ok fld ∧ FieldMapL.get k m = some fld) := by
  intro l
  induction l with
  | nil =>
    intro n acc m k h
    cases n with
    | zero => simp [importRecordGoF] at h
    | succ n =>
      simp only [importRecordGoF, Except.ok.injEq] at h
      subst h
      exact ⟨fun _ => rfl, fun c hc => by simp [lastRec] at hc⟩
  | cons c t ih =>
    intro n acc m k h
    cases n with
    | zero => simp [importRecordGoF] at h
    | succ n =>
      simp only [importRecordGoF] at h
      cases hf : importOneFieldF n c with
      | error e => rw [hf] at h; simp [bindErr] at h
      | ok fld =>
        rw [hf] at h
        simp only [bindOk] at h
        obtain ⟨ihA, ihB⟩ := ih n (acc.set (recKey c) fld) m k h
        constructor
        · intro hnone
          simp only [lastRec] at hnone
          cases hlt : lastRec k t with
          | some r => rw [hlt] at hnone; simp at hnone
          | none =>
            rw [hlt] at hnone
            have hne : ¬ recKey c = k := by
              intro he
              rw [if_pos he] at hnone
              simp at hnone
            rw [ihA hlt, FieldMapL.get_set, if_neg hne]
        · intro c' hc'
          simp only [lastRec] at hc'
          cases hlt : lastRec k t with
          | some r =>
            rw [hlt] at hc'
            simp only [Option.some.injEq] at hc'
            subst hc'
            obtain ⟨fld', hfld', hget⟩ := ihB r hlt
            exact ⟨fld', (importMono n).1 _ _ hfld', hget⟩
          | none =>
            rw [hlt] at hc'
            by_cases he : recKey c = k
            · rw [if_pos he] at hc'
              simp only [Option.some.injEq] at hc'
              subst hc'
              refine ⟨fld, (importMono n).1 _ _ hf, ?_⟩
              rw [ihA hlt, FieldMapL.get_set, if_pos he]
            · rw [if_neg he] at hc'
              simp at hc'

/-- The builder loop keeps the map keys distinct. -/
theorem importGo_nodup : ∀ (l : List Json) (n : Nat) (acc m : FieldMapL),
    importRecordGoF n acc l = .ok m → acc.keys.Nodup → m.keys.Nodup := by
  intro l
  induction l with
  | nil =>
    intro n acc m h hn
    cases n with
    | zero => simp [importRecordGoF] at h
    | succ n =>
      simp only [importRecordGoF, Except.ok.injEq] at h
      subst h
      exact hn
  | cons c t ih =>
    intro n acc m h hn
    cases n with
    | zero => simp [importRecordGoF] at h
    | succ n =>
      simp only [importRecordGoF] at h
      cases hf : importOneFieldF n c with
      | error e => rw [hf] at h; simp [bindErr] at h
      | ok fld =>
        rw [hf] at h
        simp only [bindOk] at h
        exact ih n _ m h (FieldMapL.keys_nodup_set acc (recKey c) fld hn)

/-- C8: `import_record_fields` maps an ordered record sequence to a
mapping with distinct keys; a duplicated column name holds the Field of
its last record (last write wins), a name never used is absent, and
every other entry is determined by its own last record alone. -/
theorem c8_last_write_wins : ∀ (n : Nat) (cols : List Json) (m : FieldMapL) (k : Option Json),
    importRecordFieldsF n cols = .ok m →
    (lastRec k cols = none → FieldMapL.get k m = none) ∧
    (∀ c, lastRec k cols = some c →
      ∃ fld, importOneFieldF n c = .ok fld ∧ FieldMapL.get k m = some fld) ∧
    m.keys.Nodup := by
  intro n cols m k h
  obtain ⟨hA, hB⟩ := importGo_lastRec cols n .nil m k h
  exact ⟨fun hn => by rw [hA hn]; rfl, hB, importGo_nodup cols n .nil m h (by simp [FieldMapL.keys])⟩

/-- The first record of the duplicate-name pair used to witness C8. -/
def c8wc1 : Json := jobjL [("Name", jstr "x"), ("Type", jstr "string")]

/-- The second (winning) record of the duplicate-name pair. -/
def c8wc2 : Json := jobjL [("Name", jstr "x"), ("Type", jstr "bigint")]

/-- The map built from the duplicate pair: one entry, from the later
record. -/
def c8wmap : FieldMapL :=
  .cons (some (jstr "x")) (.mk (some "long".data) (some false) none .fnone .inone) .nil

/-- Witness for C8: two records named `x`; the built map holds exactly
the Field of the later record, by the theorem applied concretely. -/
theorem c8_witness :
    importRecordFieldsF 5 [c8wc1, c8wc2] = .ok c8wmap ∧
    ∃ fld, importOneFieldF 5 c8wc2 = .ok fld ∧
      FieldMapL.get (some (jstr "x")) c8wmap = some fld :=
  ⟨by decide,
    (c8_last_write_wins 5 [c8wc1, c8wc2] c8wmap (some (jstr "x")) (by decide)).2.1 c8wc2 (by decide)⟩

/-- A Field node that carries no positive required flag and no
description of its own (what the spec allows nested children). -/
def GField.nodeClean (f : GField) : Bool :=
  (match f.frequired with
   | some true => false
   | _ => true) &&
  (match f.fdescription with
   | none => true
   | some _ => false)

mutual
/-- Every Field strictly below this one is a clean node. -/
def GField.subClean : GField → Bool
  | .mk _ _ _ ff it => ff.cleanAll && it.cleanAll
/-- Every Field inside a `fields` attribute value is clean throughout. -/
def FieldsOpt.cleanAll : FieldsOpt → Bool
  | .fnone => true
  | .fmap m => m.cleanAll
  | .fsingle f => f.nodeClean && f.subClean
/-- Every Field inside an `items` attribute value is clean throughout. -/
def ItemsOpt.cleanAll : ItemsOpt → Bool
  | .inone => true
  | .isome f => f.nodeClean && f.subClean
/-- Every Field of a nested mapping is clean throughout. -/
def FieldMapL.cleanAll : FieldMapL → Bool
  | .nil => true
  | .cons _ v t => v.nodeClean && v.subClean && t.cleanAll
end

/-- Every top-level Field of the built map has only clean nodes strictly
below it (the top nodes themselves may carry required/description). -/
def FieldMapL.allSub : FieldMapL → Bool
  | .nil => true
  | .cons _ v t => v.subClean && t.allSub

/-- A descriptor record with a falsy partition marker and no comment. -/
def objSelfClean (o : JObj) : Bool :=
  !optTruthy (JObj.get "Hive".data o) && (JObj.get "Comment".data o).isNone

mutual
/-- No object reachable in this value (itself included) carries a truthy
`Hive` entry or a `Comment` entry. -/
def Json.noHC : Json → Bool
  | .obj o => objSelfClean o && o.noHCVals
  | .arr a => a.noHCAll
  | .str _ => true
  | .num _ => true
  | .tru => true
  | .fls => true
  | .nul => true
/-- Predicate `Json.noHC` over every value of an object. -/
def JObj.noHCVals : JObj → Bool
  | .nil => true
  | .cons _ v t => v.noHC && t.noHCVals
/-- Predicate `Json.noHC` over every element of an array. -/
def JArr.noHCAll : JArr → Bool
  | .nil => true
  | .cons h t => h.noHC && t.noHCAll
end

/-- A value fetched out of an object with clean values is clean. -/
theorem JObj.get_noHC : ∀ (o : JObj) (key : Str) (j : Json),
    JObj.noHCVals o = true → JObj.get key o = some j → Json.noHC j = true
  | .nil, key, j => by intro _ hj; simp [JObj.get] at hj
  | .cons k v t, key, j => by
    intro hvals hj
    simp only [JObj.noHCVals, Bool.and_eq_true] at hvals
    simp only [JObj.get] at hj
    by_cases hk : k = key
    · rw [if_pos hk] at hj
      cases hj
      exact hvals.1
    · rw [if_neg hk] at hj
      exact JObj.get_noHC t key j hvals.2 hj

/-- An element of an array with clean elements is clean. -/
theorem JArr.mem_noHC : ∀ (a : JArr) (c : Json),
    JArr.noHCAll a = true → c ∈ JArr.toList a → Json.noHC c = true
  | .nil, c => by intro _ hc; simp [JArr.toList] at hc
  | .cons h t, c => by
    intro hall hc
    simp only [JArr.noHCAll, Bool.and_eq_true] at hall
    simp only [JArr.toList, List.mem_cons] at hc
    rcases hc with hc | hc
    · subst hc; exact hall.1
    · exact JArr.mem_noHC t c hall.2 hc

/-- Assigning a clean-throughout Field keeps a fully clean map fully
clean. -/
theorem FieldMapL.cleanAll_set : ∀ (m : FieldMapL) (k : Option Json) (v : GField),
    FieldMapL.cleanAll m = true → (GField.nodeClean v && GField.subClean v) = true →
    FieldMapL.cleanAll (m.set k v) = true
  | .nil, k, v => by
    intro _ hv
    simp only [FieldMapL.set, FieldMapL.cleanAll]
    simp only [Bool.and_eq_true] at hv ⊢
    exact ⟨hv, trivial⟩
  | .cons k0 v0 t, k, v => by
    intro hm hv
    simp only [FieldMapL.cleanAll, Bool.and_eq_true] at hm
    simp only [FieldMapL.set]
    by_cases h0 : k0 = k
    · rw [if_pos h0]
      simp only [FieldMapL.cleanAll, Bool.and_eq_true] at hv ⊢
      exact ⟨hv, hm.2⟩
    · rw [if_neg h0]
      simp only [FieldMapL.cleanAll, Bool.and_eq_true]
      exact ⟨hm.1, by
        have := FieldMapL.cleanAll_set t k v hm.2 hv
        simpa using this⟩

/-- Assigning a Field with clean children keeps the top-level map
property that every entry has clean children. -/
theorem FieldMapL.allSub_set : ∀ (m : FieldMapL) (k : Option Json) (v : GField),
    FieldMapL.allSub m = true → GField.subClean v = true →
    FieldMapL.allSub (m.set k v) = true
  | .nil, k, v => by
    intro _ hv
    simp [FieldMapL.set, FieldMapL.allSub, hv]
  | .cons k0 v0 t, k, v => by
    intro hm hv
    simp only [FieldMapL.allSub, Bool.and_eq_true] at hm
    simp only [FieldMapL.set]
    by_cases h0 : k0 = k
    · rw [if_pos h0]
      simp only [FieldMapL.allSub, Bool.and_eq_true]
      exact ⟨hv, hm.2⟩
    · rw [if_neg h0]
      simp only [FieldMapL.allSub, Bool.and_eq_true]
      exact ⟨hm.1, FieldMapL.allSub_set t k v hm.2 hv⟩

/-- The cleanliness induction: builders applied to descriptor values
whose reachable objects carry no truthy `Hive` and no `Comment` produce
Fields whose nested nodes are all clean; the top record itself may carry
the markers, which only reach the top node. -/
theorem importClean : ∀ n : Nat,
    (∀ c fld, importOneFieldF n c = .ok fld →
      (∀ o, c = Json.obj o → JObj.noHCVals o = true) → GField.subClean fld = true) ∧
    (∀ c fld, importOneFieldF n c = .ok fld → Json.noHC c = true →
      (GField.nodeClean fld && GField.subClean fld) = true) ∧
    (∀ v fm, importRecordValF n v = .ok fm →
      (∀ j, v = some j → Json.noHC j = true) → FieldMapL.cleanAll fm = true) ∧
    (∀ acc l fm, importRecordGoF n acc l = .ok fm → (∀ c ∈ l, Json.noHC c = true) →
      FieldMapL.cleanAll acc = true → FieldMapL.cleanAll fm = true) ∧
    (∀ v fld, importArrayFieldF n v = .ok fld →
      (∀ j, v = some j → Json.noHC j = true) →
      (GField.nodeClean fld && GField.subClean fld) = true) := by
  intro n
  induction n with
  | zero =>
    refine ⟨?_, ?_, ?_, ?_, ?_⟩
    · intro c fld h; simp [importOneFieldF] at h
    · intro c fld h; simp [importOneFieldF] at h
    · intro v fm h; simp [importRecordValF] at h
    · intro acc l fm h; simp [importRecordGoF] at h
    · intro v fld h; simp [importArrayFieldF] at h
  | succ n ih =>
    obtain ⟨ih1, ih2, ih3, ih4, ih5⟩ := ih
    have A : ∀ c fld, importOneFieldF (n + 1) c = .ok fld →
        (∀ o, c = Json.obj o → JObj.noHCVals o = true) → GField.subClean fld = true := by
      intro c fld h hcl
      cases c with
      | obj o =>
        have hvals := hcl o rfl
        simp only [importOneFieldF] at h
        cases hft : mapTypeValue (JObj.get "Type".data o) with
        | error e => rw [hft] at h; simp [bindErr] at h
        | ok ft =>
          rw [hft] at h
          simp only [bindOk] at h
          by_cases h1 : ft = some "struct".data
          · rw [if_pos h1] at h
            cases hm : importRecordValF n (JObj.get "Fields".data o) with
            | error e => rw [hm] at h; simp [bindErr] at h
            | ok m =>
              rw [hm] at h
              simp only [bindOk, Except.ok.injEq] at h
              subst h
              have hmclean : FieldMapL.cleanAll m = true :=
                ih3 _ m hm (fun j hj => JObj.get_noHC o "Fields".data j hvals hj)
              simp [GField.subClean, FieldsOpt.cleanAll, ItemsOpt.cleanAll, hmclean]
          · rw [if_neg h1] at h
            by_cases h2 : ft = some "array".data
            · rw [if_pos h2] at h
              cases hm : importArrayFieldF n (JObj.get "Items".data o) with
              | error e => rw [hm] at h; simp [bindErr] at h
              | ok it =>
                rw [hm] at h
                simp only [bindOk, Except.ok.injEq] at h
                subst h
                have hit := ih5 _ it hm (fun j hj => JObj.get_noHC o "Items".data j hvals hj)
                simp only [GField.subClean, FieldsOpt.cleanAll, ItemsOpt.cleanAll]
                simpa using hit
            · rw [if_neg h2] at h
              simp only [Except.ok.injEq] at h
              subst h
              simp [GField.subClean, FieldsOpt.cleanAll, ItemsOpt.cleanAll]
      | str s => simp [importOneFieldF] at h
      | num l => simp [importOneFieldF] at h
      | tru => simp [importOneFieldF] at h
      | fls => simp [importOneFieldF] at h
      | nul => simp [importOneFieldF] at h
      | arr a => simp [importOneFieldF] at h
    have B : ∀ c fld, importOneFieldF (n + 1) c = .ok fld → Json.noHC c = true →
        (GField.nodeClean fld && GField.subClean fld) = true := by
      intro c fld h hno
      cases c with
      | obj o =>
        simp only [Json.noHC, Bool.and_eq_true] at hno
        obtain ⟨hself, hvals⟩ := hno
        have hsub : GField.subClean fld = true :=
          A _ _ h (fun o' ho' => by
            injection ho' with he
            rw [← he]
            exact hvals)
        have hrd := importOne_req_desc (n + 1) o fld h
        simp only [objSelfClean, Bool.and_eq_true, Bool.not_eq_true'] at hself
        have hreq : fld.frequired = some false := by rw [hrd.1, hself.1]
        have hdesc : fld.fdescription = none := by
          rw [hrd.2]
          exact Option.isNone_iff_eq_none.mp hself.2
        have hnode : GField.nodeClean fld = true := by
          simp [GField.nodeClean, hreq, hdesc]
        simp [hnode, hsub]
      | str s => simp [importOneFieldF] at h
      | num l => simp [importOneFieldF] at h
      | tru => simp [importOneFieldF] at h
      | fls => simp [importOneFieldF] at h
      | nul => simp [importOneFieldF] at h
      | arr a => simp [importOneFieldF] at h
    have C : ∀ v fm, importRecordValF (n + 1) v = .ok fm →
        (∀ j, v = some j → Json.noHC j = true) → FieldMapL.cleanAll fm = true := by
      intro v fm h hcl
      cases v with
      | none => simp [importRecordValF] at h
      | some j =>
        cases j with
        | arr a =>
          simp only [importRecordValF] at h
          have hano : JArr.noHCAll a = true := by
            have := hcl (.arr a) rfl
            simpa [Json.noHC] using this
          exact ih4 _ _ _ h (fun c hc => JArr.mem_noHC a c hano hc) (by trivial)
        | str s =>
          simp only [importRecordValF] at h
          by_cases hs : s.isEmpty
          · rw [if_pos hs] at h
            simp only [Except.ok.injEq] at h
            subst h
            trivial
          · rw [if_neg hs] at h
            simp at h
        | obj o =>
          cases o with
          | nil =>
            simp only [importRecordValF, Except.ok.injEq] at h
            subst h
            trivial
          | cons k v' t => simp [importRecordValF] at h
        | num l => simp [importRecordValF] at h
        | tru => simp [importRecordValF] at h
        | fls => simp [importRecordValF] at h
        | nul => simp [importRecordValF] at h
    have D : ∀ acc l fm, importRecordGoF (n + 1) acc l = .ok fm →
        (∀ c ∈ l, Json.noHC c = true) → FieldMapL.cleanAll acc = true →
        FieldMapL.cleanAll fm = true := by
      intro acc l fm h hl hacc
      cases l with
      | nil =>
        simp only [importRecordGoF, Except.ok.injEq] at h
        subst h
        exact hacc
      | cons c t =>
        simp only [importRecordGoF] at h
        cases hf : importOneFieldF n c with
        | error e => rw [hf] at h; simp [bindErr] at h
        | ok fld =>
          rw [hf] at h
          simp only [bindOk] at h
          have hcn := ih2 _ _ hf (hl c (List.mem_cons_self c t))
          exact ih4 _ _ _ h (fun x hx => hl x (List.mem_cons_of_mem _ hx))
            (FieldMapL.cleanAll_set acc (recKey c) fld hacc hcn)
    have E : ∀ v fld, importArrayFieldF (n + 1) v = .ok fld →
        (∀ j, v = some j → Json.noHC j = true) →
        (GField.nodeClean fld && GField.subClean fld) = true := by
      intro v fld h hcl
      cases v with
      | none => simp [importArrayFieldF] at h
      | some j =>
        cases j with
        | obj o =>
          have hno := hcl (.obj o) rfl
          simp only [Json.noHC, Bool.and_eq_true] at hno
          obtain ⟨hself, hvals⟩ := hno
          simp only [importArrayFieldF] at h
          cases hft : mapTypeValue (JObj.get "Type".data o) with
          | error e => rw [hft] at h; simp [bindErr] at h
          | ok ft =>
            rw [hft] at h
            simp only [bindOk] at h
            by_cases h1 : ft = some "struct".data
            · rw [if_pos h1] at h
              cases hm : importRecordValF n (JObj.get "Fields".data o) with
              | error e => rw [hm] at h; simp [bindErr] at h
              | ok m =>
                rw [hm] at h
                simp only [bindOk, Except.ok.injEq] at h
                subst h
                have hmclean : FieldMapL.cleanAll m = true :=
                  ih3 _ m hm (fun j hj => JObj.get_noHC o "Fields".data j hvals hj)
                simp [GField.nodeClean, GField.frequired, GField.fdescription, GField.subClean,
                  FieldsOpt.cleanAll, ItemsOpt.cleanAll, hmclean]
            · rw [if_neg h1] at h
              by_cases h2 : ft = some "array".data
              · rw [if_pos h2] at h
                cases hm : importArrayFieldF n (JObj.get "Items".data o) with
                | error e => rw [hm] at h; simp [bindErr] at h
                | ok f =>
                  rw [hm] at h
                  simp only [bindOk, Except.ok.injEq] at h
                  subst h
                  have hf := ih5 _ f hm (fun j hj => JObj.get_noHC o "Items".data j hvals hj)
                  have houter : GField.nodeClean (GField.mk ft none none (.fsingle f) .inone) = true := by
                    simp [GField.nodeClean, GField.frequired, GField.fdescription]
                  simp only [GField.subClean, FieldsOpt.cleanAll, ItemsOpt.cleanAll, houter,
                    Bool.true_and, Bool.and_true]
                  simpa using hf
              · rw [if_neg h2] at h
                simp only [Except.ok.injEq] at h
                subst h
                simp [GField.nodeClean, GField.frequired, GField.fdescription, GField.subClean,
                  FieldsOpt.cleanAll, ItemsOpt.cleanAll]
        | str s => simp [importArrayFieldF] at h
        | arr a => simp [importArrayFieldF] at h
        | num l => simp [importArrayFieldF] at h
        | tru => simp [importArrayFieldF] at h
        | fls => simp [importArrayFieldF] at h
        | nul => simp [importArrayFieldF] at h
    exact ⟨A, B, C, D, E⟩

/-- The builder loop keeps the children of every top entry clean when
the sub-values of each record are clean. -/
theorem importGo_allSub : ∀ (l : List Json) (n : Nat) (acc m : FieldMapL),
    importRecordGoF n acc l = .ok m →
    (∀ c ∈ l, ∀ o, c = Json.obj o → JObj.noHCVals o = true) →
    FieldMapL.allSub acc = true → FieldMapL.allSub m = true := by
  intro l
  induction l with
  | nil =>
    intro n acc m h _ hacc
    cases n with
    | zero => simp [importRecordGoF] at h
    | succ n =>
      simp only [importRecordGoF, Except.ok.injEq] at h
      subst h
      exact hacc
  | cons c t ih =>
    intro n acc m h hl hacc
    cases n with
    | zero => simp [importRecordGoF] at h
    | succ n =>
      simp only [importRecordGoF] at h
      cases hf : importOneFieldF n c with
      | error e => rw [hf] at h; simp [bindErr] at h
      | ok fld =>
        rw [hf] at h
        simp only [bindOk] at h
        have hsub : GField.subClean fld = true :=
          (importClean n).1 _ _ hf (fun o ho => hl c (List.mem_cons_self c t) o ho)
        exact ih n _ m h (fun x hx o ho => hl x (List.mem_cons_of_mem _ hx) o ho)
          (FieldMapL.allSub_set acc (recKey c) fld hacc hsub)

/-- C7, amended: provided the descriptor objects reachable below each
top record carry no truthy `Hive` entry and no `Comment` entry (as every
descriptor that `generate_sub_fields` builds from a well-formed type
string does), no Field strictly below the top level of the built map has
`required` true or a description — whatever partition flags the top
records carry.  A type string that splices a quoted `Hive` key
into a struct member body (the counterexample) escapes the hypothesis
and does set a nested required flag. -/
theorem c7_amended_nested_clean : ∀ (n : Nat) (cols : List Json) (m : FieldMapL),
    importRecordFieldsF n cols = .ok m →
    (∀ c ∈ cols, ∀ o, c = Json.obj o → JObj.noHCVals o = true) →
    FieldMapL.allSub m = true := by
  intro n cols m h hcl
  exact importGo_allSub cols n .nil m h hcl (by trivial)

/-- The injecting raw type string of the C7 counterexample: a struct
whose member body quotes a Hive key, written out by character codes. -/
def c7type : Str := "struct<a:".data ++ sq1 "Hive".data ++ ":".data ++ sq1 "x".data ++ ">".data

/-- A column record (itself not a partition key) carrying `c7type`. -/
def c7col : Json := .obj (JObj.ofList [("Name".data, jstr "s"), ("Type".data, .str c7type)])

/-- C7, counterexample: the naive struct-member splicing lets the member
body inject a quoted truthy `Hive` key into the generated descriptor,
so the nested child `a` is built with `required = true` even
though the top-level column carries no partition flag at all. -/
theorem c7_counterexample :
    (((exGet (importPipeline 9 [c7col]) "s").bind (fun f => subField f "a")).bind
      GField.frequired) = some true ∧
    JObj.get "Hive".data (JObj.ofList [("Name".data, jstr "s"), ("Type".data, .str c7type)])
      = none :=
  ⟨by decide, by decide⟩

/-- The well-formed formatted record used to witness C7. -/
def c7wcol : Json :=
  jobjL [("Name", jstr "s"), ("Type", jstr "struct"),
    ("Fields", jarrL [jobjL [("Name", jstr "a"), ("Type", jstr "string")]])]

/-- The map built from `c7wcol`. -/
def c7wmap : FieldMapL :=
  .cons (some (jstr "s"))
    (.mk (some "struct".data) (some false) none
      (.fmap (.cons (some (jstr "a"))
        (.mk (some "string".data) (some false) none .fnone .inone) .nil))
      .inone)
    .nil

/-- Witness for C7: the amended theorem applied to one concrete clean
record, both hypotheses discharged by evaluation. -/
theorem c7_witness : FieldMapL.allSub c7wmap = true :=
  c7_amended_nested_clean 9 [c7wcol] c7wmap (by decide)
    (by
      intro c hc o ho
      rw [List.mem_singleton] at hc
      subst hc
      simp only [c7wcol, jobjL] at ho
      injection ho with he
      rw [← he]
      decide)

/-- Dropping while a predicate holds skips over a block that satisfies
it entirely. -/
theorem dropWhile_append_all {p : Char → Bool} : ∀ (a b : Str),
    (∀ c ∈ a, p c = true) → (a ++ b).dropWhile p = b.dropWhile p := by
  intro a
  induction a with
  | nil => intro b _; rfl
  | cons x xs ih =>
    intro b h
    rw [List.cons_append, List.dropWhile_cons_of_pos (h x (List.mem_cons_self x xs))]
    exact ih b (fun c hc => h c (List.mem_cons_of_mem x hc))

/-- Taking while a predicate holds passes through a block that satisfies
it entirely. -/
theorem takeWhile_append_all {p : Char → Bool} : ∀ (a b : Str),
    (∀ c ∈ a, p c = true) → (a ++ b).takeWhile p = a ++ b.takeWhile p := by
  intro a
  induction a with
  | nil => intro b _; rfl
  | cons x xs ih =>
    intro b h
    rw [List.cons_append, List.takeWhile_cons_of_pos (h x (List.mem_cons_self x xs)),
      ih b (fun c hc => h c (List.mem_cons_of_mem x hc)), List.cons_append]

/-- The head surviving a `dropWhile` fails the predicate. -/
theorem head?_dropWhile {p : Char → Bool} : ∀ (l : Str) (c : Char),
    (l.dropWhile p).head? = some c → p c = false := by
  intro l
  induction l with
  | nil => intro c h; simp [List.dropWhile] at h
  | cons a t ih =>
    intro c h
    by_cases hp : p a
    · rw [List.dropWhile_cons_of_pos hp] at h
      exact ih c h
    · rw [List.dropWhile_cons_of_neg hp] at h
      simp only [List.head?_cons, Option.some.injEq] at h
      subst h
      exact Bool.not_eq_true _ ▸ (by simpa using hp)

/-- A list holding an element that fails the predicate survives the
`dropWhile` with a failing head. -/
theorem dropWhile_ex (p : Char → Bool) : ∀ (a : Str), (∃ c ∈ a, p c = false) →
    ∃ h t, a.dropWhile p = h :: t ∧ p h = false := by
  intro a
  induction a with
  | nil => intro h; simp at h
  | cons x xs ih =>
    intro h
    by_cases hp : p x
    · rw [List.dropWhile_cons_of_pos hp]
      apply ih
      obtain ⟨c, hc, hcp⟩ := h
      rcases List.mem_cons.mp hc with rfl | hc2
      · rw [hp] at hcp; cases hcp
      · exact ⟨c, hc2, hcp⟩
    · rw [List.dropWhile_cons_of_neg hp]
      exact ⟨x, xs, rfl, by simpa using hp⟩

/-- Decomposition behind a successful `lastWord`: the string is a left
part ending in a non-word character (or empty), the word itself, and a
tail of non-word characters. -/
theorem lastWord_decomp (l w : Str) (h : lastWord l = some w) :
    ∃ r g, l = r ++ w ++ g ∧ w ≠ [] ∧ (∀ c ∈ w, isWordChar c = true) ∧
      (∀ c ∈ g, isWordChar c = false) ∧
      (∀ c, r.getLast? = some c → isWordChar c = false) := by
  simp only [lastWord] at h
  set rv := l.reverse with hrv
  set d := rv.dropWhile (fun c => !isWordChar c) with hd
  set w' := d.takeWhile (fun c => isWordChar c) with hw'
  by_cases he : w'.isEmpty
  · rw [if_pos he] at h; cases h
  · rw [if_neg he] at h
    simp only [Option.some.injEq] at h
    subst h
    refine ⟨(d.dropWhile (fun c => isWordChar c)).reverse,
      (rv.takeWhile (fun c => !isWordChar c)).reverse, ?_, ?_, ?_, ?_, ?_⟩
    · have h1 : rv.takeWhile (fun c => !isWordChar c) ++ d = rv :=
        List.takeWhile_append_dropWhile _ _
      have h2 : w' ++ d.dropWhile (fun c => isWordChar c) = d :=
        List.takeWhile_append_dropWhile _ _
      calc l = rv.reverse := by rw [hrv, List.reverse_reverse]
        _ = (rv.takeWhile (fun c => !isWordChar c) ++ d).reverse := by rw [h1]
        _ = d.reverse ++ (rv.takeWhile (fun c => !isWordChar c)).reverse := by
              rw [List.reverse_append]
        _ = (w' ++ d.dropWhile (fun c => isWordChar c)).reverse ++
              (rv.takeWhile (fun c => !isWordChar c)).reverse := by rw [h2]
        _ = ((d.dropWhile (fun c => isWordChar c)).reverse ++ w'.reverse) ++
              (rv.takeWhile (fun c => !isWordChar c)).reverse := by
              rw [List.reverse_append]
        _ = (d.dropWhile (fun c => isWordChar c)).reverse ++ w'.reverse ++
              (rv.takeWhile (fun c => !isWordChar c)).reverse := rfl
    · intro hnil
      rw [List.reverse_eq_nil_iff] at hnil
      rw [hnil] at he
      simp at he
    · intro c hc
      rw [List.mem_reverse] at hc
      exact List.mem_takeWhile_imp hc
    · intro c hc
      rw [List.mem_reverse] at hc
      have := List.mem_takeWhile_imp hc
      simpa using this
    · intro c hc
      rw [List.getLast?_reverse] at hc
      exact head?_dropWhile d c hc

/-- Reconstruction: a string of that shape has exactly that last word. -/
theorem lastWord_parts (r w g : Str) (hw : w ≠ [])
    (hwall : ∀ c ∈ w, isWordChar c = true) (hg : ∀ c ∈ g, isWordChar c = false)
    (hr : ∀ c, r.getLast? = some c → isWordChar c = false) :
    lastWord (r ++ w ++ g) = some w := by
  simp only [lastWord]
  have hrev : (r ++ w ++ g).reverse = g.reverse ++ (w.reverse ++ r.reverse) := by
    rw [List.reverse_append, List.reverse_append]
  rw [hrev]
  have hdrop : (g.reverse ++ (w.reverse ++ r.reverse)).dropWhile (fun c => !isWordChar c)
      = (w.reverse ++ r.reverse).dropWhile (fun c => !isWordChar c) := by
    apply dropWhile_append_all
    intro c hc
    rw [List.mem_reverse] at hc
    simp [hg c hc]
  rw [hdrop]
  obtain ⟨c0, w1, hw1⟩ : ∃ c0 w1, w.reverse = c0 :: w1 := by
    cases hwr : w.reverse with
    | nil => rw [List.reverse_eq_nil_iff] at hwr; exact absurd hwr hw
    | cons c0 w1 => exact ⟨c0, w1, rfl⟩
  have hc0w : isWordChar c0 = true := by
    apply hwall
    rw [← List.mem_reverse, hw1]
    exact List.mem_cons_self c0 w1
  have hdrop2 : (w.reverse ++ r.reverse).dropWhile (fun c => !isWordChar c)
      = w.reverse ++ r.reverse := by
    rw [hw1, List.cons_append]
    apply List.dropWhile_cons_of_neg
    simp [hc0w]
  rw [hdrop2]
  have htake : (w.reverse ++ r.reverse).takeWhile (fun c => isWordChar c)
      = w.reverse ++ r.reverse.takeWhile (fun c => isWordChar c) := by
    apply takeWhile_append_all
    intro c hc
    rw [List.mem_reverse] at hc
    exact hwall c hc
  have htr : r.reverse.takeWhile (fun c => isWordChar c) = [] := by
    cases hrr : r.reverse with
    | nil => rfl
    | cons c0 r1 =>
      apply List.takeWhile_cons_of_neg
      have : r.getLast? = some c0 := by
        rw [← List.head?_reverse, hrr, List.head?_cons]
      simp [hr c0 this]
  rw [htake, htr, List.append_nil]
  have hne : w.reverse.isEmpty = false := by
    rw [hw1]; rfl
  rw [if_neg (by simp [hne])]
  rw [List.reverse_reverse]

/-- A string holding a word character has a last word. -/
theorem lastWord_isSome (l : Str) (c : Char) (hc : c ∈ l) (hw : isWordChar c = true) :
    ∃ w, lastWord l = some w := by
  simp only [lastWord]
  obtain ⟨h0, t0, hdrop, hph⟩ :=
    dropWhile_ex (fun c => !isWordChar c) l.reverse
      ⟨c, List.mem_reverse.mpr hc, by simp [hw]⟩
  rw [hdrop]
  rw [List.takeWhile_cons_of_pos (by simpa using hph)]
  simp

/-- A `none` from `rfindChar` means the character does not occur. -/
theorem rfind_none (c : Char) : ∀ (s : Str), rfindChar c s = none → c ∉ s := by
  intro s
  induction s with
  | nil => intro _ h; simp at h
  | cons a t ih =>
    intro h hmem
    simp only [rfindChar] at h
    cases hrt : rfindChar c t with
    | some i => rw [hrt] at h; cases h
    | none =>
      rw [hrt] at h
      have ha : ¬ a = c := by
        intro he; rw [if_pos he] at h; cases h
      rcases List.mem_cons.mp hmem with he | hmem2
      · exact ha he.symm
      · exact ih hrt hmem2

/-- What a successful `rfindChar` means: a hit at the index, and no hit
anywhere to its right. -/
theorem rfind_spec (c : Char) : ∀ (s : Str) (p : Nat), rfindChar c s = some p →
    p < s.length ∧ s.get? p = some c ∧ ∀ k, p < k → s.get? k ≠ some c := by
  intro s
  induction s with
  | nil => intro p h; simp [rfindChar] at h
  | cons a t ih =>
    intro p h
    simp only [rfindChar] at h
    cases hrt : rfindChar c t with
    | some i =>
      rw [hrt] at h
      simp only [Option.some.injEq] at h
      subst h
      obtain ⟨hlen, hget, hmax⟩ := ih i hrt
      refine ⟨by simpa using Nat.succ_lt_succ hlen, by simpa using hget, ?_⟩
      intro k hk
      cases k with
      | zero => omega
      | succ k' =>
        have : i < k' := by omega
        simpa using hmax k' this
    | none =>
      rw [hrt] at h
      have ha : a = c := by
        by_cases hac : a = c
        · exact hac
        · rw [if_neg hac] at h; cases h
      rw [if_pos ha] at h
      simp only [Option.some.injEq] at h
      subst h
      refine ⟨by simp, by simpa using ha, ?_⟩
      intro k hk
      cases k with
      | zero => omega
      | succ k' =>
        intro hget
        exact rfind_none c t hrt (List.get?_mem (by simpa using hget))

/-- A hit anywhere gives `rfindChar` a result. -/
theorem rfind_some_of_get? (s : Str) (j : Nat) (c : Char) (h : s.get? j = some c) :
    ∃ p, rfindChar c s = some p := by
  cases hr : rfindChar c s with
  | some p => exact ⟨p, rfl⟩
  | none => exact absurd (List.get?_mem h) (rfind_none c s hr)

/-- Taking up to a clamped bound is taking up to the bound. -/
theorem take_min (l : Str) (n : Nat) : l.take (min n l.length) = l.take n := by
  rcases Nat.le_total n l.length with h | h
  · rw [Nat.min_eq_left h]
  · rw [Nat.min_eq_right h, List.take_length, List.take_of_length_le h]

/-- The Python slice `s[:p]` for a natural bound is a plain `take`. -/
theorem pySliceTo_nat (s : Str) (p : Nat) : pySliceTo s (p : Int) = s.take p := by
  simp only [pySliceTo, pySlice, pyClamp]
  have h0 : ¬ ((0 : Int) < 0) := by omega
  have hp : ¬ ((p : Int) < 0) := by omega
  rw [if_neg h0, if_neg hp]
  simp only [Int.toNat_zero, Int.toNat_ofNat, Nat.zero_min, List.drop_zero, Nat.sub_zero]
  exact take_min s p

/-- The Python slice `s[:-k]` for positive `k` takes all but the last
`k` characters. -/
theorem pySliceTo_neg (s : Str) (k : Nat) (hk : 0 < k) :
    pySliceTo s (-(k : Int)) = s.take (s.length - k) := by
  simp only [pySliceTo, pySlice, pyClamp]
  have h0 : ¬ ((0 : Int) < 0) := by omega
  have hk2 : (-(k : Int)) < 0 := by omega
  rw [if_neg h0, if_pos hk2]
  simp only [Int.toNat_zero, Nat.zero_min, List.drop_zero, Nat.sub_zero, Int.neg_neg,
    Int.toNat_ofNat]
  have : s.length - min s.length k = s.length - k := by omega
  rw [this]

/-- The literal slice `s[:-6]` takes all but the last six characters. -/
theorem pySliceTo_neg6 (s : Str) : pySliceTo s (-6) = s.take (s.length - 6) := by
  have h := pySliceTo_neg s 6 (by omega)
  have he : (-((6 : Nat) : Int)) = (-6 : Int) := by norm_num
  rw [he] at h
  exact h

/-- The literal slice `s[:-5]` takes all but the last five characters. -/
theorem pySliceTo_neg5 (s : Str) : pySliceTo s (-5) = s.take (s.length - 5) := by
  have h := pySliceTo_neg s 5 (by omega)
  have he : (-((5 : Nat) : Int)) = (-5 : Int) := by norm_num
  rw [he] at h
  exact h

/-- The bracket body the rewrite step extracts at opening position `p`. -/
def contentAt (s : Str) (p : Int) : Str :=
  pySlice s (p + 1) (p + pyFindC '>' (pySliceFrom s p))

/-- The suffix the rewrite step keeps after the matched closing bracket. -/
def endAt (s : Str) (p : Int) : Str :=
  pySliceFrom s (p + pyFindC '>' (pySliceFrom s p) + 1)

/-- A struct splice is the stripped prefix followed by a fixed tail. -/
theorem structSplice_shape (a f e : Str) : structSplice a f e = a ++ structSplice [] f e := by
  simp [structSplice, List.append_assoc]

/-- An array splice over a resolved body is the stripped prefix followed
by a fixed tail. -/
theorem arrSpliceT_shape (a c e : Str) : arrSpliceT a c e = a ++ arrSpliceT [] c e := by
  simp [arrSpliceT, List.append_assoc]

/-- An array splice over a scalar body is the stripped prefix followed
by a fixed tail. -/
theorem arrSpliceS_shape (a c e : Str) : arrSpliceS a c e = a ++ arrSpliceS [] c e := by
  simp [arrSpliceS, List.append_assoc]

/-- The rewrite step at a right-most bracket preceded by `struct`:
strip six characters and splice the struct literal. -/
theorem genStep_struct (s : Str) (p : Nat) (hp : rfindChar '<' s = some p)
    (hw : lastWord (s.take p) = some "struct".data) (hple : p ≤ s.length) :
    genStep s = .ok (structSplice (s.take (p - 6)) (fieldsLit (contentAt s (p : Int)))
      (endAt s (p : Int))) := by
  have hpy : pyRfind '<' s = (p : Int) := by simp [pyRfind, hp]
  simp only [genStep, hpy, pySliceTo_nat, hw]
  simp only [if_true]
  simp only [pySliceTo_neg6, List.length_take, Nat.min_eq_left hple, List.take_take,
    Nat.min_eq_left (by omega : p - 6 ≤ p), contentAt, endAt]

/-- The rewrite step at a right-most bracket preceded by `array`:
strip five characters and splice one of the two array literals. -/
theorem genStep_array (s : Str) (p : Nat) (hp : rfindChar '<' s = some p)
    (hw : lastWord (s.take p) = some "array".data) (hple : p ≤ s.length) :
    genStep s = .ok (if isPre (qw "Type") (contentAt s (p : Int))
      then arrSpliceT (s.take (p - 5)) (contentAt s (p : Int)) (endAt s (p : Int))
      else arrSpliceS (s.take (p - 5)) (contentAt s (p : Int)) (endAt s (p : Int))) := by
  have hpy : pyRfind '<' s = (p : Int) := by simp [pyRfind, hp]
  simp only [genStep, hpy, pySliceTo_nat, hw]
  simp only [if_true]
  simp only [pySliceTo_neg5, List.length_take, Nat.min_eq_left hple, List.take_take,
    Nat.min_eq_left (by omega : p - 5 ≤ p), contentAt, endAt]
  rw [if_neg (by decide : ¬ ((['a', 'r', 'r', 'a', 'y'] : Str) = ['s', 't', 'r', 'u', 'c', 't']))]
  by_cases hcc : isPre (qw "Type")
      (pySlice s ((p : Int) + 1) ((p : Int) + pyFindC '>' (pySliceFrom s (p : Int)))) = true
  · rw [if_pos hcc, if_pos hcc]
  · rw [if_neg hcc, if_neg hcc]

/-- The rewrite step at a right-most bracket preceded by any other word
leaves the string untouched. -/
theorem genStep_skip (s : Str) (p : Nat) (hp : rfindChar '<' s = some p) (w : Str)
    (hw : lastWord (s.take p) = some w) (h1 : w ≠ "struct".data) (h2 : w ≠ "array".data) :
    genStep s = .ok s := by
  have hpy : pyRfind '<' s = (p : Int) := by simp [pyRfind, hp]
  simp only [genStep, hpy, pySliceTo_nat, hw]
  rw [if_neg h1, if_neg h2]

/-- A prefix test is the equality of the corresponding `take`. -/
theorem isPre_take : ∀ (p s : Str), isPre p s = true ↔ s.take p.length = p
  | [], s => by simp [isPre]
  | c :: ps, [] => by simp [isPre]
  | c :: ps, a :: as => by
    have ih := isPre_take ps as
    simp only [isPre, Bool.and_eq_true, beq_iff_eq, List.length_cons, List.take_succ_cons,
      List.cons.injEq, ih]
    constructor
    · intro h
      exact ⟨h.1.symm, h.2⟩
    · intro h
      exact ⟨h.1.symm, h.2⟩

/-- A type string that opens with one of the two composite markers. -/
def compositeStart (s : Str) : Prop :=
  isPre "struct<".data s = true ∨ isPre "array<".data s = true

/-- A bracket group the rewrite loop never resolves: an opening bracket
at position `j` whose preceding identifier is a word other than `struct`
and `array`. -/
def badAt (s : Str) (j : Nat) : Prop :=
  s.get? j = some '<' ∧
    ∃ w, lastWord (s.take j) = some w ∧ w ≠ "struct".data ∧ w ≠ "array".data

/-- No position inside the leading composite marker is a bad bracket:
the bad group sits strictly to its right. -/
theorem badAt_lower (s : Str) (j : Nat) (hb : badAt s j) :
    (isPre "struct<".data s = true → 7 ≤ j) ∧ (isPre "array<".data s = true → 6 ≤ j) := by
  obtain ⟨hget, w', hw', hws, hwa⟩ := hb
  constructor
  · intro hpre
    have htake : s.take 7 = "struct<".data := by
      have := (isPre_take "struct<".data s).mp hpre
      simpa using this
    by_contra hlt
    push_neg at hlt
    have hj6 : j ≤ 6 := by omega
    rcases Nat.lt_or_ge j 6 with hj | hj
    · have : s.get? j = ("struct<".data).get? j := by
        rw [← htake]
        exact (List.get?_take (by omega)).symm
      rw [this] at hget
      interval_cases j <;> simp at hget
    · have hj6' : j = 6 := by omega
      subst hj6'
      have ht6 : s.take 6 = "struct".data := by
        have : (s.take 7).take 6 = s.take 6 := by
          rw [List.take_take]
          norm_num
        rw [← this, htake]
        rfl
      rw [ht6] at hw'
      have : w' = "struct".data := by
        have hlw : lastWord "struct".data = some "struct".data := by decide
        rw [hlw] at hw'
        exact (Option.some.injEq _ _ ▸ hw').symm
      exact hws this
  · intro hpre
    have htake : s.take 6 = "array<".data := by
      have := (isPre_take "array<".data s).mp hpre
      simpa using this
    by_contra hlt
    push_neg at hlt
    rcases Nat.lt_or_ge j 5 with hj | hj
    · have : s.get? j = ("array<".data).get? j := by
        rw [← htake]
        exact (List.get?_take (by omega)).symm
      rw [this] at hget
      interval_cases j <;> simp at hget
    · have hj5' : j = 5 := by omega
      subst hj5'
      have ht5 : s.take 5 = "array".data := by
        have : (s.take 6).take 5 = s.take 5 := by
          rw [List.take_take]
          norm_num
        rw [← this, htake]
        rfl
      rw [ht5] at hw'
      have : w' = "array".data := by
        have hlw : lastWord "array".data = some "array".data := by decide
        rw [hlw] at hw'
        exact (Option.some.injEq _ _ ▸ hw').symm
      exact hwa this

/-- When the right-most bracket is preceded by `struct` or `array`, every
bad bracket sits strictly left of the characters the rewrite strips: the
strip never touches the bad group or the leading marker. -/
theorem bad_position (s : Str) (j p : Nat) (hb : badAt s j)
    (hp : rfindChar '<' s = some p) (w : Str) (hw : lastWord (s.take p) = some w)
    (hws : w = "struct".data ∨ w = "array".data) :
    j < p - w.length := by
  obtain ⟨hgj, w', hw'', hws', hwa'⟩ := hb
  obtain ⟨hplen, hgp, hmax⟩ := rfind_spec '<' s p hp
  have hjp : j ≤ p := by
    by_contra hgt
    push_neg at hgt
    exact hmax j hgt hgj
  have hne : j ≠ p := by
    intro he
    subst he
    rw [hw] at hw''
    have hww : w = w' := by injection hw''
    rcases hws with h | h
    · exact hws' (by rw [← hww, h])
    · exact hwa' (by rw [← hww, h])
  have hjlt : j < p := lt_of_le_of_ne hjp hne
  obtain ⟨r, g, hdecomp, hwne, hwall, hgall, hrlast⟩ := lastWord_decomp (s.take p) w hw
  have hlen_take : (s.take p).length = p := by
    rw [List.length_take, Nat.min_eq_left (le_of_lt hplen)]
  have hsum : p = r.length + w.length + g.length := by
    have hc := congrArg List.length hdecomp
    rw [hlen_take] at hc
    simp [List.length_append] at hc
    omega
  have hgj' : (s.take p).get? j = some '<' := by
    rw [List.get?_take hjlt]
    exact hgj
  rcases Nat.lt_or_ge j r.length with hcase | hcase
  · omega
  · rcases Nat.lt_or_ge j (r.length + w.length) with hcase2 | hcase2
    · exfalso
      rw [hdecomp] at hgj'
      have hstep1 : ((r ++ w) ++ g).get? j = (r ++ w).get? j :=
        List.get?_append (by rw [List.length_append]; omega)
      have hstep2 : (r ++ w).get? j = w.get? (j - r.length) :=
        List.get?_append_right hcase
      rw [hstep1, hstep2] at hgj'
      have hmem : '<' ∈ w := List.get?_mem hgj'
      exact absurd (hwall '<' hmem) (by decide)
    · exfalso
      have htj : s.take j = r ++ w ++ g.take (j - r.length - w.length) := by
        have h1 : s.take j = (s.take p).take j := by
          rw [List.take_take, Nat.min_eq_left hjp]
        rw [h1, hdecomp, List.take_append_eq_append_take,
          List.take_of_length_le (by rw [List.length_append]; omega)]
        rw [List.length_append, Nat.sub_sub]
      have hlw : lastWord (s.take j) = some w := by
        rw [htj]
        exact lastWord_parts r w _ hwne hwall
          (fun c hc => hgall c (List.take_subset _ _ hc)) hrlast
      rw [hlw] at hw''
      have hww : w = w' := by injection hw''
      rcases hws with h | h
      · exact hws' (by rw [← hww, h])
      · exact hwa' (by rw [← hww, h])

/-- A bad bracket left of a kept prefix survives any splice after it. -/
theorem badAt_keep (s : Str) (j m : Nat) (rest : Str) (hb : badAt s j) (hjm : j < m) :
    badAt (s.take m ++ rest) j := by
  obtain ⟨hg, w', hw', h1, h2⟩ := hb
  have hjlen : j < s.length := (List.get?_eq_some.mp hg).1
  constructor
  · have hlt : j < (s.take m).length := by
      rw [List.length_take]
      omega
    have e1 : (s.take m ++ rest).get? j = (s.take m).get? j := List.get?_append hlt
    have e2 : (s.take m).get? j = s.get? j := List.get?_take hjm
    rw [e1, e2]
    exact hg
  · refine ⟨w', ?_, h1, h2⟩
    have e3 : (s.take m ++ rest).take j = (s.take m).take j :=
      List.take_append_of_le_length (by rw [List.length_take]; omega)
    have e4 : (s.take m).take j = s.take j := by
      rw [List.take_take, Nat.min_eq_left (le_of_lt hjm)]
    rw [e3, e4]
    exact hw'

/-- The leading composite marker survives a splice that keeps at least
the first seven characters. -/
theorem compositeStart_keep (s : Str) (m : Nat) (rest : Str) (hcs : compositeStart s)
    (hm : 7 ≤ m) : compositeStart (s.take m ++ rest) := by
  rcases hcs with h | h
  · left
    have h7 : s.take 7 = "struct<".data := (isPre_take "struct<".data s).mp h
    apply (isPre_take "struct<".data (s.take m ++ rest)).mpr
    show (s.take m ++ rest).take 7 = "struct<".data
    by_cases hlen : 7 ≤ (s.take m).length
    · rw [List.take_append_of_le_length hlen, List.take_take, Nat.min_eq_left (by omega)]
      exact h7
    · push_neg at hlen
      have hslen : s.length < 7 := by
        rw [List.length_take] at hlen
        omega
      exfalso
      have := congrArg List.length h7
      rw [List.length_take] at this
      have h7len : ("struct<".data).length = 7 := rfl
      rw [h7len] at this
      omega
  · right
    have h6 : s.take 6 = "array<".data := (isPre_take "array<".data s).mp h
    apply (isPre_take "array<".data (s.take m ++ rest)).mpr
    show (s.take m ++ rest).take 6 = "array<".data
    by_cases hlen : 6 ≤ (s.take m).length
    · rw [List.take_append_of_le_length hlen, List.take_take, Nat.min_eq_left (by omega)]
      exact h6
    · push_neg at hlen
      have hslen : s.length < 6 := by
        rw [List.length_take] at hlen
        omega
      exfalso
      have := congrArg List.length h6
      rw [List.length_take] at this
      have h6len : ("array<".data).length = 6 := rfl
      rw [h6len] at this
      omega

/-- One rewrite iteration on a composite-opening string with a bad
bracket group succeeds and preserves both facts. -/
theorem genStep_inv (s : Str) (hcs : compositeStart s) (hb : ∃ j, badAt s j) :
    ∃ s2, genStep s = .ok s2 ∧ compositeStart s2 ∧ ∃ j2, badAt s2 j2 := by
  obtain ⟨j, hj⟩ := hb
  obtain ⟨p, hp⟩ := rfind_some_of_get? s j '<' hj.1
  obtain ⟨hplt, hgp, hmax⟩ := rfind_spec '<' s p hp
  have hple : p ≤ s.length := le_of_lt hplt
  have hjlow : 6 ≤ j := by
    rcases hcs with h | h
    · have := (badAt_lower s j hj).1 h
      omega
    · exact (badAt_lower s j hj).2 h
  have hjp : j ≤ p := by
    by_contra hgt
    push_neg at hgt
    exact hmax j hgt hj.1
  have hlw : ∃ w0, lastWord (s.take p) = some w0 := by
    have hppos : 0 < p := by omega
    have hchar : ∃ c, s.get? 0 = some c ∧ isWordChar c = true := by
      rcases hcs with h | h
      · have h7 : s.take 7 = "struct<".data := (isPre_take "struct<".data s).mp h
        refine ⟨'s', ?_, by decide⟩
        have e : (s.take 7).get? 0 = s.get? 0 := List.get?_take (by omega)
        rw [← e, h7]
        rfl
      · have h6 : s.take 6 = "array<".data := (isPre_take "array<".data s).mp h
        refine ⟨'a', ?_, by decide⟩
        have e : (s.take 6).get? 0 = s.get? 0 := List.get?_take (by omega)
        rw [← e, h6]
        rfl
    obtain ⟨c, hc0, hcw⟩ := hchar
    have hmem : c ∈ s.take p := by
      apply List.get?_mem
      show (s.take p).get? 0 = some c
      rw [List.get?_take hppos]
      exact hc0
    exact lastWord_isSome _ c hmem hcw
  obtain ⟨w0, hw0⟩ := hlw
  by_cases hs1 : w0 = "struct".data
  · subst hs1
    have hjm : j < p - 6 := by
      have hb6 := bad_position s j p hj hp _ hw0 (Or.inl rfl)
      have h6 : ("struct".data).length = 6 := rfl
      rw [h6] at hb6
      exact hb6
    have hstep := genStep_struct s p hp hw0 hple
    rw [structSplice_shape] at hstep
    exact ⟨_, hstep, compositeStart_keep s (p - 6) _ hcs (by omega),
      ⟨j, badAt_keep s j (p - 6) _ hj hjm⟩⟩
  · by_cases hs2 : w0 = "array".data
    · subst hs2
      have hjm : j < p - 5 := by
        have hb5 := bad_position s j p hj hp _ hw0 (Or.inr rfl)
        have h5 : ("array".data).length = 5 := rfl
        rw [h5] at hb5
        exact hb5
      have hstep := genStep_array s p hp hw0 hple
      by_cases hcc : isPre (qw "Type") (contentAt s (p : Int)) = true
      · rw [if_pos hcc, arrSpliceT_shape] at hstep
        exact ⟨_, hstep, compositeStart_keep s (p - 5) _ hcs (by omega),
          ⟨j, badAt_keep s j (p - 5) _ hj hjm⟩⟩
      · rw [if_neg hcc, arrSpliceS_shape] at hstep
        exact ⟨_, hstep, compositeStart_keep s (p - 5) _ hcs (by omega),
          ⟨j, badAt_keep s j (p - 5) _ hj hjm⟩⟩
    · exact ⟨s, genStep_skip s p hp w0 hw0 hs1 hs2, hcs, ⟨j, hj⟩⟩

/-- The whole rewrite loop preserves the composite opening and the bad
bracket group, however many iterations it runs. -/
theorem iterate_inv : ∀ (n : Nat) (s : Str), compositeStart s → (∃ j, badAt s j) →
    ∃ f, iterateStep n s = .ok f ∧ compositeStart f ∧ ∃ j, badAt f j := by
  intro n
  induction n with
  | zero => intro s hcs hb; exact ⟨s, rfl, hcs, hb⟩
  | succ n ih =>
    intro s hcs hb
    obtain ⟨s2, hstep, hcs2, hb2⟩ := genStep_inv s hcs hb
    obtain ⟨f, hit, hcf, hbf⟩ := ih s2 hcs2 hb2
    refine ⟨f, ?_, hcf, hbf⟩
    simp only [iterateStep, hstep, bindOk]
    exact hit

/-- An object parse stops dead on a character that opens neither a key
nor the empty object. -/
theorem parseObjRest_stuck (n : Nat) (c : Char) (r : Str) (h1 : c ≠ rbc) (h2 : c ≠ dqc) :
    parseObjRest n (c :: r) = none := by
  cases n with
  | zero => rfl
  | succ n => simp [parseObjRest, h1, h2]

/-- Embedded `json.loads` rejects a document whose object body opens with a
letter of a composite marker. -/
theorem jsonLoads_stuck (c : Char) (r : Str) (hc : c = 's' ∨ c = 'a') :
    jsonLoads (lbc :: c :: r) = none := by
  have hval : ∀ n : Nat, parseVal n (lbc :: c :: r) = none := by
    intro n
    cases n with
    | zero => rfl
    | succ n =>
      have hws : isWs lbc = false := by decide
      have hwsc : isWs c = false := by rcases hc with rfl | rfl <;> decide
      simp only [parseVal, skipWs, hws, Bool.false_eq_true, if_false, hwsc]
      simp only [if_true]
      apply parseObjRest_stuck
      · rcases hc with rfl | rfl <;> decide
      · rcases hc with rfl | rfl <;> decide
  simp only [jsonLoads, hval]

/-- A composite-opening string, after the final substitutions and the
brace wrapping, always fails the final parse. -/
theorem genFinal_fails (f : Str) (hcs : compositeStart f) :
    jsonLoads (genWrap (genReplace f)) = none := by
  obtain ⟨c, t, hft, hc⟩ : ∃ c t, f = c :: t ∧ (c = 's' ∨ c = 'a') := by
    rcases hcs with h | h
    · cases f with
      | nil => simp [isPre] at h
      | cons c t =>
        simp only [isPre, Bool.and_eq_true, beq_iff_eq] at h
        exact ⟨c, t, rfl, Or.inl h.1.symm⟩
    · cases f with
      | nil => simp [isPre] at h
      | cons c t =>
        simp only [isPre, Bool.and_eq_true, beq_iff_eq] at h
        exact ⟨c, t, rfl, Or.inr h.1.symm⟩
  subst hft
  have hrep : genReplace (c :: t) = c :: genReplace t := by
    simp only [genReplace, List.map_cons]
    rcases hc with rfl | rfl <;> rfl
  rw [hrep]
  exact jsonLoads_stuck c _ hc

/-- C10: a composite-opening type string holding a bracket group whose
preceding identifier is neither `struct` nor `array` survives the whole
rewrite loop with that group unrewritten, and the final `json.loads` of
the spliced string fails with the generic JSON decode error — the
normalizer neither returns a descriptor nor raises either named error
kind. -/
theorem c10_unrewritten_group_json_error : ∀ s : Str, compositeStart s →
    (∃ j, badAt s j) →
    ∃ f, iterateStep (countChar '<' s) s = .ok f ∧ (∃ j, badAt f j) ∧
      genSubFields s = .error .jsonDecode := by
  intro s hcs hb
  obtain ⟨f, hit, hcf, hbf⟩ := iterate_inv (countChar '<' s) s hcs hb
  refine ⟨f, hit, hbf, ?_⟩
  simp only [genSubFields, hit, bindOk]
  rw [genFinal_fails f hcf]

/-- Witness for C10 at `struct<m:map<string,int>>`: the bad group is the
`map` bracket at position 12. -/
theorem c10_witness :
    compositeStart "struct<m:map<string,int>>".data ∧
    genSubFields "struct<m:map<string,int>>".data = .error .jsonDecode := by
  have hb : ∃ j, badAt "struct<m:map<string,int>>".data j :=
    ⟨12, by decide, "map".data, by decide, by decide, by decide⟩
  have h := c10_unrewritten_group_json_error "struct<m:map<string,int>>".data
    (Or.inl (by decide)) hb
  obtain ⟨f, _, _, he⟩ := h
  exact ⟨Or.inl (by decide), he⟩
